import Mathlib

/-! Directory-tree reconstruction of the storage client.

Shallow embedding of `client/util.go` and the `TreeNode`, `DagLink` and
`DagGetResponse` records of `client/models.go`.

Modelling conventions.

* A Go `string` is a Lean `String`; `uint64` is `Nat` (the code never does
  arithmetic on sizes); `int` is `Int`.
* A Go `error` result is `Option String`, `none` being `nil`.
* A Go slice `[]*TreeNode` is `Option (List TreeNode)`: `none` is the nil
  slice, `some []` the empty non-nil slice built by `NewNode`.
* The tree is owned strictly (spec section 3): no node is reachable along two
  different paths, so a `*TreeNode` is modelled by the value of the subtree it
  points to, and a pointer handed out by `Find` by the position of that subtree
  (`NodeRef`, the child indices from the receiver).
* The IPFS shell is an external library. It is a parameter `Shell` made of two
  functions; an unchanged store answers the same call the same way, a failed
  call answers `none`.
* `BuildChildTree` recurses along the links of the store, which Go does not
  bound. The embedding takes a recursion budget and answers `none` when the
  budget is exhausted; a Go run that returns corresponds to `some`.
* `BuildChildTreeTraced` is the same method together with the list of remote
  calls it issues; forgetting the calls gives `BuildChildTree`.
* The download manager client and Go's `filepath` functions are external; they
  are the parameter `Aria2Env`.
-/

/-- Go error value, `none` standing for `nil`. -/
abbrev GoError := Option String

/-- The record `DagLink` of models.go; `Target` is the field `Hash.Target`. -/
structure DagLink where
  Target : String
  Name : String
  Tsize : Int

/-- The record `DagGetResponse` of models.go; `Bytes` is `Data.Target.Bytes`. -/
structure DagGetResponse where
  Bytes : String
  Links : List DagLink

/-- The fields of the shell's stat answer that the client reads. -/
structure FilesStatObject where
  Type_ : String
  CumulativeSize : Nat

/-- The two remote calls of the IPFS shell used by the tree resolver:
`FilesStat` by path and `DagGet` by identifier. `none` is a failed call. -/
structure Shell where
  FilesStat : String → Option FilesStatObject
  DagGet : String → Option DagGetResponse

/-- The record `TreeNode` of models.go. -/
structure TreeNode where
  Path : String
  Name : String
  Hash : String
  Size : Nat
  Dir : Bool
  Deep : Int
  Child : Option (List TreeNode)

/-- Position of a node below a receiver: the child indices leading to it. -/
abbrev NodeRef := List Nat

/-- Go's `strings.TrimRight s cutset`: drop every trailing character of `s`
that occurs in `cutset`. -/
def strings_TrimRight (s cutset : String) : String :=
  ⟨(s.data.reverse.dropWhile (fun c => cutset.data.contains c)).reverse⟩

/-- Go's `strings.TrimLeft s cutset`: drop every leading character of `s`
that occurs in `cutset`. -/
def strings_TrimLeft (s cutset : String) : String :=
  ⟨s.data.dropWhile (fun c => cutset.data.contains c)⟩

/-- The function `pathJoin` of util.go (variadic `parts` as a list). -/
def pathJoin (root : String) (parts : List String) : String :=
  let url := parts.foldl
    (fun url part => strings_TrimRight url "/" ++ "/" ++ strings_TrimLeft part "/") root
  strings_TrimRight url "/"

/-- The constructor `NewNode` of util.go. `Deep` keeps Go's zero value. -/
def NewNode (hash path name : String) (size : Nat) (dir : Bool) : TreeNode :=
  { Hash := hash, Path := path, Name := name, Size := size, Dir := dir, Deep := 0,
    Child := some [] }

/-- The function `NewNodeByDataCid` of util.go; `none` is the nil result. -/
def NewNodeByDataCid (sh : Shell) (dataCid nodePath name : String) : Option TreeNode :=
  let path := pathJoin "/ipfs/" [dataCid]
  match sh.FilesStat path with
  | none => none
  | some stat =>
    if stat.Type_ = "directory" then
      some (NewNode dataCid (pathJoin nodePath [dataCid]) name stat.CumulativeSize true)
    else if stat.Type_ = "file" then
      some (NewNode dataCid (pathJoin nodePath [dataCid]) name stat.CumulativeSize false)
    else
      none

namespace TreeNode

/-- The elements of the child slice; Go's `range n.Child` and `len(n.Child)`
see a nil slice as empty. -/
def children (n : TreeNode) : List TreeNode :=
  n.Child.getD []

/-- Go's `append(n.Child, node)`: the result is never nil. -/
def appendChild (n node : TreeNode) : TreeNode :=
  { n with Child := some (n.children ++ [node]) }

/-- The method `AddChild` of util.go: the receiver afterwards and the error. -/
def AddChild (n node : TreeNode) : TreeNode × GoError :=
  if n.Child.isSome then (n.appendChild node, none) else (n, none)

/-- The inner loop of `BuildChildTree` (lines 243 to 250): resolve every link
relative to `child` and attach the ones that resolve. -/
def attachLinks (sh : Shell) (child : TreeNode) (links : List DagLink) : TreeNode :=
  links.foldl
    (fun child link =>
      match NewNodeByDataCid sh link.Target child.Path link.Name with
      | none => child
      | some subChild => (child.AddChild subChild).1)
    child

/-- Go's `for _, child := range cs` with a body that updates the node behind
each pointer: the updated children in order, `none` if a body does not return. -/
def forEachChild (body : TreeNode → Option TreeNode) : List TreeNode → Option (List TreeNode)
  | [] => some []
  | child :: rest =>
    match body child with
    | none => none
    | some child' =>
      match forEachChild body rest with
      | none => none
      | some rest' => some (child' :: rest')

/-- The body of the outer loop of `BuildChildTree` (lines 232 to 252) for one
child, `recur` being the recursive call `child.BuildChildTree(sh)`, whose error
the loop drops. `none` when the recursive call does not return. -/
def childStep (recur : TreeNode → Option (TreeNode × GoError)) (sh : Shell)
    (child : TreeNode) : Option TreeNode :=
  if !child.Dir then some child
  else
    match sh.DagGet child.Hash with
    | none => some child
    | some resp =>
      match recur (child.attachLinks sh resp.Links) with
      | none => none
      | some (child', _) => some child'

/-- The method `BuildChildTree` of util.go with a recursion budget: the
receiver afterwards and the error, `none` when the budget runs out. -/
def BuildChildTree : Nat → Shell → TreeNode → Option (TreeNode × GoError)
  | 0, _, _ => none
  | fuel + 1, sh, n =>
    if !n.Dir || n.children.length = 0 then some (n, none)
    else
      match forEachChild (childStep (BuildChildTree fuel sh) sh) n.children with
      | none => none
      | some cs => some ({ n with Child := some cs }, none)

mutual
/-- The method `Find` of util.go, returning the node found. -/
def Find (hash : String) : TreeNode → Option TreeNode
  | ⟨p, nm, h, s, d, dp, c⟩ =>
    if h = hash then some ⟨p, nm, h, s, d, dp, c⟩ else FindSlice hash c
/-- The loop of `Find` over a possibly nil slice. -/
def FindSlice (hash : String) : Option (List TreeNode) → Option TreeNode
  | none => none
  | some cs => FindList hash cs
/-- The loop of `Find` over the children. -/
def FindList (hash : String) : List TreeNode → Option TreeNode
  | [] => none
  | child :: rest =>
    match Find hash child with
    | some fn => some fn
    | none => FindList hash rest
end

mutual
/-- The method `Find` of util.go, returning where the node found sits: the
pointer Go returns, as a position below the receiver. -/
def FindRef (hash : String) : TreeNode → Option NodeRef
  | ⟨_, _, h, _, _, _, c⟩ => if h = hash then some [] else FindRefSlice hash c
/-- The loop of `FindRef` over a possibly nil slice. -/
def FindRefSlice (hash : String) : Option (List TreeNode) → Option NodeRef
  | none => none
  | some cs => FindRefList hash 0 cs
/-- The loop of `FindRef` over the children, `i` being the index of the head. -/
def FindRefList (hash : String) (i : Nat) : List TreeNode → Option NodeRef
  | [] => none
  | child :: rest =>
    match FindRef hash child with
    | some r => some (i :: r)
    | none => FindRefList hash (i + 1) rest
end

/-- Dereference a position: the subtree at `r` below `n`, if there is one. -/
def nodeAt (n : TreeNode) : NodeRef → Option TreeNode
  | [] => some n
  | i :: r =>
    match n.children[i]? with
    | none => none
    | some c => nodeAt c r

/-- Assignment through a pointer: apply `f` to the node at position `r`. -/
def modifyAt (f : TreeNode → TreeNode) : NodeRef → TreeNode → TreeNode
  | [], n => f n
  | i :: r, n =>
    match n.Child with
    | none => n
    | some cs => { n with Child := some (cs.modify (modifyAt f r) i) }

/-- The method `Insert` of util.go: the receiver afterwards and the error. -/
def Insert (n : TreeNode) (hash : String) (node : TreeNode) : TreeNode × GoError :=
  match n.FindRef hash with
  | some prev => (modifyAt (fun p => p.appendChild node) prev n, none)
  | none => (n, none)

/-- The method `Del` of util.go, whose body only returns nil. -/
def Del (n : TreeNode) (_hash : String) : TreeNode × GoError :=
  (n, none)

mutual
/-- The nodes of a tree in the order `PrintAll` visits them: a node, then the
listing of each child in sequence order. -/
def preorder : TreeNode → List TreeNode
  | ⟨p, nm, h, s, d, dp, c⟩ => ⟨p, nm, h, s, d, dp, c⟩ :: preorderSlice c
/-- The loop of `preorder` over a possibly nil slice. -/
def preorderSlice : Option (List TreeNode) → List TreeNode
  | none => []
  | some cs => preorderList cs
/-- The loop of `preorder` over the children. -/
def preorderList : List TreeNode → List TreeNode
  | [] => []
  | child :: rest => preorder child ++ preorderList rest
end

end TreeNode

/-- The store of the worked example of the spec: `Qroot` links file `a`
(`Qa`, 10 bytes) and directory `b` (`Qb`), which links file `c` (`Qc`, 20). -/
def exampleShell : Shell where
  FilesStat := fun path =>
    if path = "/ipfs/Qroot" then some ⟨"directory", 30⟩
    else if path = "/ipfs/Qa" then some ⟨"file", 10⟩
    else if path = "/ipfs/Qb" then some ⟨"directory", 20⟩
    else if path = "/ipfs/Qc" then some ⟨"file", 20⟩
    else none
  DagGet := fun hash =>
    if hash = "Qroot" then some ⟨"", [⟨"Qa", "a", 10⟩, ⟨"Qb", "b", 20⟩]⟩
    else if hash = "Qb" then some ⟨"", [⟨"Qc", "c", 20⟩]⟩
    else none

/-- The same store with the link-fetch of `Qb` failing. -/
def exampleShellFailB : Shell where
  FilesStat := exampleShell.FilesStat
  DagGet := fun hash => if hash = "Qb" then none else exampleShell.DagGet hash

/-- Leaf `a` of the worked example. -/
def exampleA : TreeNode := NewNode "Qa" "/Qroot/Qa" "a" 10 false

/-- Leaf `c` of the worked example. -/
def exampleC : TreeNode := NewNode "Qc" "/Qroot/Qb/Qc" "c" 20 false

/-- Directory `b` of the worked example before expansion. -/
def exampleB : TreeNode := NewNode "Qb" "/Qroot/Qb" "b" 20 true

/-- Directory `b` of the worked example after expansion. -/
def exampleBFull : TreeNode := { exampleB with Child := some [exampleC] }

/-- The root of the worked example with its own links attached. -/
def exampleRoot : TreeNode :=
  { NewNode "Qroot" "/Qroot" "" 30 true with Child := some [exampleA, exampleB] }

/-- The resolved tree of the worked example. -/
def exampleTree : TreeNode :=
  { exampleRoot with Child := some [exampleA, exampleBFull] }

/-- A store for three siblings: the link-fetch of `Qb` fails, directory `Qd`
links the file `Qc`. -/
def siblingShell : Shell where
  FilesStat := fun path => if path = "/ipfs/Qc" then some ⟨"file", 20⟩ else none
  DagGet := fun hash => if hash = "Qd" then some ⟨"", [⟨"Qc", "c", 20⟩]⟩ else none

/-- Directory `d`, a sibling of `a` and `b`, before expansion. -/
def exampleD : TreeNode := NewNode "Qd" "/Qroot/Qd" "d" 20 true

/-- Directory `d` after expansion. -/
def exampleDFull : TreeNode :=
  { exampleD with Child := some [NewNode "Qc" "/Qroot/Qd/Qc" "c" 20 false] }

/-- A root with the three siblings `a` (leaf), `b` and `d` (directories). -/
def siblingRoot : TreeNode :=
  { NewNode "Qroot" "/Qroot" "" 50 true with Child := some [exampleA, exampleB, exampleD] }

/-- The tree `BuildChildTree` leaves behind on `siblingRoot`. -/
def siblingTree : TreeNode :=
  { siblingRoot with Child := some [exampleA, exampleB, exampleDFull] }

/-- The link graph of the store is acyclic and of bounded depth: `rank`
strictly decreases along every link. -/
def Acyclic (sh : Shell) (rank : String → Nat) : Prop :=
  ∀ h resp, sh.DagGet h = some resp → ∀ l ∈ resp.Links, rank l.Target < rank h

mutual
/-- How deep `BuildChildTree` can recurse below a node: the rank of its hash,
or one more than the bound of a child, whichever is larger. -/
def TreeNode.depthBound (rank : String → Nat) : TreeNode → Nat
  | ⟨_, _, h, _, _, _, c⟩ => max (rank h) (TreeNode.depthBoundSlice rank c)
/-- The bound over a possibly nil slice. -/
def TreeNode.depthBoundSlice (rank : String → Nat) : Option (List TreeNode) → Nat
  | none => 0
  | some cs => TreeNode.depthBoundList rank cs
/-- The bound over the children. -/
def TreeNode.depthBoundList (rank : String → Nat) : List TreeNode → Nat
  | [] => 0
  | child :: rest => max (TreeNode.depthBound rank child + 1) (TreeNode.depthBoundList rank rest)
end

/-- A rank for the store of the worked example. -/
def exampleRank : String → Nat :=
  fun h => if h = "Qroot" then 2 else if h = "Qb" then 1 else 0

/-- Two nodes carry the same fields, whatever their children. -/
def TreeNode.sameLabel (a b : TreeNode) : Prop :=
  a.Path = b.Path ∧ a.Name = b.Name ∧ a.Hash = b.Hash ∧ a.Size = b.Size ∧ a.Dir = b.Dir ∧
    a.Deep = b.Deep

/-- Every stat of a link target succeeds with a known type, and so does the
link-fetch of every link target that is a directory. -/
def Resolves (sh : Shell) : Prop :=
  ∀ h resp, sh.DagGet h = some resp → ∀ l ∈ resp.Links,
    ∃ stat, sh.FilesStat (pathJoin "/ipfs/" [l.Target]) = some stat ∧
      (stat.Type_ = "directory" ∨ stat.Type_ = "file") ∧
      (stat.Type_ = "directory" → ∃ r, sh.DagGet l.Target = some r)

/-- The node `child`, below a parent at `parentPath`, stands for the link `l`:
same hash and name, the path joined below the parent, the size and the
directory flag the store reports for the target. -/
def linkOf (sh : Shell) (parentPath : String) (child : TreeNode) (l : DagLink) : Prop :=
  child.Hash = l.Target ∧ child.Name = l.Name ∧
  child.Path = pathJoin parentPath [l.Target] ∧
  ∃ stat, sh.FilesStat (pathJoin "/ipfs/" [l.Target]) = some stat ∧
    child.Size = stat.CumulativeSize ∧ (child.Dir = true ↔ stat.Type_ = "directory")

/-- The tree is exactly the link graph below its root: the children of every
directory node stand one-to-one and in link order for the links of its hash,
and no other node has children. -/
def Mirrors (sh : Shell) (t : TreeNode) : Prop :=
  ∀ m ∈ t.preorder,
    (m.Dir = true → ∃ resp, sh.DagGet m.Hash = some resp ∧
      List.Forall₂ (linkOf sh m.Path) m.children resp.Links) ∧
    (m.Dir = false → m.children = [])

/-- The leaf invariant of spec section 3: every node of the tree that is not
a directory has an empty child sequence. -/
def LeafInv (t : TreeNode) : Prop :=
  ∀ m ∈ t.preorder, m.Dir = false → m.children = []

/-- The record `Aria2Conf` of models.go. -/
structure Aria2Conf where
  Host : String
  Port : Int
  Secret : String

/-- The error field of the download manager's response, of which the client
reads the message. -/
structure Aria2DownloadError where
  Message : String

/-- The fields of the download manager's response that the client reads:
`Error` is a pointer, `none` when the response carries no error field. -/
structure Aria2Download where
  Error : Option Aria2DownloadError
  Gid : String

/-- The download manager client of the external library: `DownloadFile` by
source URL, output directory and file name; `none` is the nil response. -/
structure Aria2Client where
  DownloadFile : String → String → String → Option Aria2Download

/-- The library functions `downloadFileByAria2` calls: the client constructor
and Go's `filepath.Dir` and `filepath.Base`. -/
structure Aria2Env where
  GetAria2Client : String → String → Int → Aria2Client
  filepath_Dir : String → String
  filepath_Base : String → String

/-- The function `downloadFileByAria2` of util.go; `errors.New msg` is
`some msg`. -/
def downloadFileByAria2 (env : Aria2Env) (conf : Aria2Conf) (downUrl outPath : String) :
    GoError :=
  let aria2 := env.GetAria2Client conf.Host conf.Secret conf.Port
  let outDir := env.filepath_Dir outPath
  let fileName := env.filepath_Base outPath
  match aria2.DownloadFile downUrl outDir fileName with
  | none => some "no response when asking aria2 to download"
  | some aria2Download =>
    match aria2Download.Error with
    | some err => some err.Message
    | none =>
      if aria2Download.Gid = "" then some "no gid returned when asking aria2 to download"
      else none

/-- A download manager that answers every job with the handle `gid1`. -/
def exampleAria2Env : Aria2Env where
  GetAria2Client := fun _ _ _ => ⟨fun _ _ _ => some ⟨none, "gid1"⟩⟩
  filepath_Dir := fun p => p
  filepath_Base := fun p => p

/-- A download manager that answers every job with the error `boom`. -/
def failingAria2Env : Aria2Env where
  GetAria2Client := fun _ _ _ => ⟨fun _ _ _ => some ⟨some ⟨"boom"⟩, "gid1"⟩⟩
  filepath_Dir := fun p => p
  filepath_Base := fun p => p

/-- A remote call issued to the shell. -/
inductive ShellCall where
  | FilesStat (path : String)
  | DagGet (hash : String)

/-- The function `NewNodeByDataCid` of util.go together with the remote calls
it issues, in order. -/
def NewNodeByDataCidTraced (sh : Shell) (dataCid nodePath name : String) :
    Option TreeNode × List ShellCall :=
  let path := pathJoin "/ipfs/" [dataCid]
  match sh.FilesStat path with
  | none => (none, [ShellCall.FilesStat path])
  | some stat =>
    if stat.Type_ = "directory" then
      (some (NewNode dataCid (pathJoin nodePath [dataCid]) name stat.CumulativeSize true),
        [ShellCall.FilesStat path])
    else if stat.Type_ = "file" then
      (some (NewNode dataCid (pathJoin nodePath [dataCid]) name stat.CumulativeSize false),
        [ShellCall.FilesStat path])
    else
      (none, [ShellCall.FilesStat path])

/-- The inner loop of `BuildChildTree` together with the remote calls it
issues. -/
def TreeNode.attachLinksTraced (sh : Shell) (child : TreeNode) (links : List DagLink) :
    TreeNode × List ShellCall :=
  links.foldl
    (fun acc link =>
      match NewNodeByDataCidTraced sh link.Target acc.1.Path link.Name with
      | (none, calls) => (acc.1, acc.2 ++ calls)
      | (some subChild, calls) => ((acc.1.AddChild subChild).1, acc.2 ++ calls))
    (child, [])

/-- The loop over the children together with the remote calls of the bodies. -/
def TreeNode.forEachChildTraced (body : TreeNode → Option (TreeNode × List ShellCall)) :
    List TreeNode → Option (List TreeNode × List ShellCall)
  | [] => some ([], [])
  | child :: rest =>
    match body child with
    | none => none
    | some (child', calls) =>
      match TreeNode.forEachChildTraced body rest with
      | none => none
      | some (rest', calls') => some (child' :: rest', calls ++ calls')

/-- The body of the outer loop of `BuildChildTree` together with the remote
calls it issues. -/
def TreeNode.childStepTraced (recur : TreeNode → Option (TreeNode × GoError × List ShellCall))
    (sh : Shell) (child : TreeNode) : Option (TreeNode × List ShellCall) :=
  if !child.Dir then some (child, [])
  else
    match sh.DagGet child.Hash with
    | none => some (child, [ShellCall.DagGet child.Hash])
    | some resp =>
      match recur (child.attachLinksTraced sh resp.Links).1 with
      | none => none
      | some (child', _, calls) =>
        some (child',
          ShellCall.DagGet child.Hash :: (child.attachLinksTraced sh resp.Links).2 ++ calls)

/-- The method `BuildChildTree` of util.go with a recursion budget, together
with the remote calls it issues: the receiver afterwards, the error and the
calls in order. -/
def TreeNode.BuildChildTreeTraced :
    Nat → Shell → TreeNode → Option (TreeNode × GoError × List ShellCall)
  | 0, _, _ => none
  | fuel + 1, sh, n =>
    if !n.Dir || n.children.length = 0 then some (n, none, [])
    else
      match TreeNode.forEachChildTraced
          (TreeNode.childStepTraced (TreeNode.BuildChildTreeTraced fuel sh) sh) n.children with
      | none => none
      | some (cs, calls) => some ({ n with Child := some cs }, none, calls)

/-- The tree `new` extends the tree `old`: every node of `old` is still at its
position in `new` (so below the same parent), with the same fields, and has at
least the children it had, its old children at their old indices. -/
def Grows (old new : TreeNode) : Prop :=
  ∀ q a, old.nodeAt q = some a →
    ∃ a', new.nodeAt q = some a' ∧ a'.sameLabel a ∧ a.children.length ≤ a'.children.length

/-- Directory `b` of the worked example with a nil child container, as a node
built without `NewNode` has. -/
def exampleBNil : TreeNode := { exampleB with Child := none }

/-- A root whose only child is the directory `b` with a nil child container. -/
def nilRoot : TreeNode :=
  { NewNode "Qroot" "/Qroot" "" 30 true with Child := some [exampleBNil] }

/-- The worked example after a second `BuildChildTree` on the resolved tree:
the link of `b` is attached once more. -/
def exampleTreeTwice : TreeNode :=
  { exampleRoot with
    Child := some [exampleA, { exampleB with Child := some [exampleC, exampleC] }] }

/-! ## Unfolding lemmas and the induction principle of trees -/

/-- Induction over a tree: a property that passes from the children of a node
to the node holds of every node. -/
theorem TreeNode.induct {P : TreeNode → Prop}
    (step : ∀ t : TreeNode, (∀ c ∈ t.children, P c) → P t) : ∀ t, P t := by
  intro t
  refine TreeNode.rec (motive_1 := P)
    (motive_2 := fun oc => ∀ c ∈ oc.getD [], P c)
    (motive_3 := fun l => ∀ c ∈ l, P c) ?_ ?_ ?_ ?_ ?_ t
  · intro p nm h s d dp c ih
    exact step _ ih
  · simp
  · intro v ih
    simpa using ih
  · simp
  · intro head tail ih1 ih2 c hc
    rcases List.mem_cons.mp hc with rfl | hc
    · exact ih1
    · exact ih2 c hc

theorem TreeNode.FindList_eq (h : String) (cs : List TreeNode) :
    TreeNode.FindList h cs = cs.findSome? (TreeNode.Find h) := by
  induction cs with
  | nil => simp [TreeNode.FindList]
  | cons c cs ih =>
    rw [TreeNode.FindList, List.findSome?_cons, ih]
    cases TreeNode.Find h c <;> rfl

theorem TreeNode.Find_eq (h : String) (t : TreeNode) :
    t.Find h = if t.Hash = h then some t else t.children.findSome? (TreeNode.Find h) := by
  obtain ⟨p, nm, hs, s, d, dp, c⟩ := t
  rw [TreeNode.Find]
  cases c with
  | none => simp [TreeNode.FindSlice, TreeNode.children]
  | some cs => simp [TreeNode.FindSlice, TreeNode.children, TreeNode.FindList_eq]

theorem TreeNode.preorderList_eq (cs : List TreeNode) :
    TreeNode.preorderList cs = cs.flatMap TreeNode.preorder := by
  induction cs with
  | nil => simp [TreeNode.preorderList]
  | cons c cs ih => rw [TreeNode.preorderList, List.flatMap_cons, ih]

theorem TreeNode.preorder_eq (t : TreeNode) :
    t.preorder = t :: t.children.flatMap TreeNode.preorder := by
  obtain ⟨p, nm, hs, s, d, dp, c⟩ := t
  rw [TreeNode.preorder]
  cases c with
  | none => simp [TreeNode.preorderSlice, TreeNode.children]
  | some cs => simp [TreeNode.preorderSlice, TreeNode.children, TreeNode.preorderList_eq]

theorem TreeNode.mem_preorder_self (t : TreeNode) : t ∈ t.preorder := by
  rw [TreeNode.preorder_eq]; exact List.mem_cons_self _ _

theorem TreeNode.mem_preorder_of_child {t c m : TreeNode} (hc : c ∈ t.children)
    (hm : m ∈ c.preorder) : m ∈ t.preorder := by
  rw [TreeNode.preorder_eq]
  exact List.mem_cons_of_mem _ (List.mem_flatMap.mpr ⟨c, hc, hm⟩)

theorem List.findSome?_congr_mem {α β : Type} {f g : α → Option β} {l : List α}
    (hfg : ∀ a ∈ l, f a = g a) : l.findSome? f = l.findSome? g := by
  induction l with
  | nil => rfl
  | cons a l ih =>
    rw [List.findSome?_cons, List.findSome?_cons, hfg a (List.mem_cons_self _ _),
      ih (fun b hb => hfg b (List.mem_cons_of_mem _ hb))]

/-- `Find` is the first match of the pre-order listing. -/
theorem TreeNode.Find_eq_find_preorder (h : String) (t : TreeNode) :
    t.Find h = t.preorder.find? (fun m => m.Hash == h) := by
  induction t using TreeNode.induct with
  | step t ih =>
    rw [TreeNode.Find_eq, TreeNode.preorder_eq, List.find?_cons]
    by_cases hh : t.Hash = h
    · simp [hh]
    · have hb : (t.Hash == h) = false := by simpa using hh
      rw [if_neg hh, hb, List.find?_flatMap]
      exact List.findSome?_congr_mem ih

/-! ## Identity search -/

/-- C1. `Find` returns a node exactly when some node of the tree (the root or a
descendant) carries the hash; a returned node carries the hash and is a node of
the tree. On the worked example `Find "Qc"` is the node `c` and `Find "Qz"`
finds nothing. -/
theorem find_some_iff_hash_present (t : TreeNode) (h : String) :
    ((t.Find h).isSome ↔ ∃ m ∈ t.preorder, m.Hash = h) ∧
    (∀ m, t.Find h = some m → m.Hash = h ∧ m ∈ t.preorder) ∧
    exampleTree.Find "Qc" = some exampleC ∧ exampleTree.Find "Qz" = none := by
  refine ⟨?_, ?_, by rfl, by rfl⟩
  · rw [TreeNode.Find_eq_find_preorder, List.find?_isSome]
    simp
  · intro m hm
    rw [TreeNode.Find_eq_find_preorder] at hm
    exact ⟨by simpa using List.find?_some hm, List.mem_of_find?_eq_some hm⟩

/-- C2. The node `Find` returns is the first node of the pre-order listing (a
node before its children, children in sequence order) whose hash matches; when
the root matches, the root is returned whatever its descendants carry. -/
theorem find_is_first_preorder_match (t : TreeNode) (h : String) :
    t.Find h = t.preorder.find? (fun m => m.Hash == h) ∧
    (t.Hash = h → t.Find h = some t) ∧
    (∀ m, t.Find h = some m →
      ∃ before after, t.preorder = before ++ m :: after ∧ ∀ b ∈ before, b.Hash ≠ h) := by
  refine ⟨TreeNode.Find_eq_find_preorder h t, ?_, ?_⟩
  · intro hh
    rw [TreeNode.Find_eq, if_pos hh]
  · intro m hm
    rw [TreeNode.Find_eq_find_preorder, List.find?_eq_some] at hm
    obtain ⟨-, before, after, hsplit, hbefore⟩ := hm
    exact ⟨before, after, hsplit, fun b hb => by simpa using hbefore b hb⟩

/-! ## The loop over the children -/

theorem TreeNode.forEachChild_cons (f : TreeNode → Option TreeNode) (c : TreeNode)
    (cs : List TreeNode) :
    TreeNode.forEachChild f (c :: cs) =
      (f c).bind (fun c' => (TreeNode.forEachChild f cs).map (fun cs' => c' :: cs')) := by
  rw [TreeNode.forEachChild]
  cases f c with
  | none => rfl
  | some c' => cases TreeNode.forEachChild f cs <;> rfl

theorem TreeNode.forEachChild_append (f : TreeNode → Option TreeNode)
    (as bs : List TreeNode) :
    TreeNode.forEachChild f (as ++ bs) =
      (TreeNode.forEachChild f as).bind
        (fun as' => (TreeNode.forEachChild f bs).map (fun bs' => as' ++ bs')) := by
  induction as with
  | nil => cases h : TreeNode.forEachChild f bs <;> simp [TreeNode.forEachChild, h]
  | cons a as ih =>
    rw [List.cons_append, TreeNode.forEachChild_cons, TreeNode.forEachChild_cons, ih]
    cases f a with
    | none => rfl
    | some a' =>
      cases TreeNode.forEachChild f as with
      | none => rfl
      | some as' => cases TreeNode.forEachChild f bs <;> rfl

theorem TreeNode.forEachChild_some_iff (f : TreeNode → Option TreeNode)
    (cs cs' : List TreeNode) :
    TreeNode.forEachChild f cs = some cs' ↔ List.Forall₂ (fun c c' => f c = some c') cs cs' := by
  induction cs generalizing cs' with
  | nil =>
    rw [TreeNode.forEachChild]
    constructor
    · intro h; cases h; exact List.Forall₂.nil
    · intro h; cases h; rfl
  | cons c cs ih =>
    rw [TreeNode.forEachChild_cons]
    constructor
    · intro h
      cases hc : f c with
      | none => rw [hc] at h; cases h
      | some c' =>
        rw [hc] at h
        cases hcs : TreeNode.forEachChild f cs with
        | none => rw [hcs] at h; cases h
        | some cs'' =>
          rw [hcs] at h
          cases h
          exact List.Forall₂.cons hc ((ih cs'').mp hcs)
    · intro h
      cases h with
      | cons h1 h2 => rw [h1, (ih _).mpr h2]; rfl

theorem TreeNode.forEachChild_getElem? {f : TreeNode → Option TreeNode}
    {cs cs' : List TreeNode} (h : TreeNode.forEachChild f cs = some cs') (i : Nat) :
    cs'[i]? = (cs[i]?).bind f := by
  rw [TreeNode.forEachChild_some_iff] at h
  induction h generalizing i with
  | nil => rfl
  | cons h1 _ ih =>
    cases i with
    | zero => simp [h1]
    | succ i => simpa using ih i

theorem TreeNode.forEachChild_length {f : TreeNode → Option TreeNode}
    {cs cs' : List TreeNode} (h : TreeNode.forEachChild f cs = some cs') :
    cs'.length = cs.length := by
  rw [TreeNode.forEachChild_some_iff] at h
  exact h.length_eq.symm

/-! ## Unfolding `BuildChildTree` -/

theorem TreeNode.BuildChildTree_succ (fuel : Nat) (sh : Shell) (n : TreeNode) :
    TreeNode.BuildChildTree (fuel + 1) sh n =
      if !n.Dir || n.children.length = 0 then some (n, none)
      else
        (TreeNode.forEachChild (TreeNode.childStep (TreeNode.BuildChildTree fuel sh) sh)
          n.children).map (fun cs => ({ n with Child := some cs }, none)) := by
  rw [TreeNode.BuildChildTree]
  split
  · rfl
  · cases TreeNode.forEachChild
      (TreeNode.childStep (TreeNode.BuildChildTree fuel sh) sh) n.children <;> rfl

theorem TreeNode.children_eq_nil_of_length {n : TreeNode} (h : n.children.length = 0) :
    n.children = [] := List.length_eq_zero.mp h

/-- What a returning run on a directory does: the error is nil and the children
afterwards are the loop body applied to each child in order. -/
theorem TreeNode.BuildChildTree_dir {fuel : Nat} {sh : Shell} {n t : TreeNode} {e : GoError}
    (hd : n.Dir = true) (h : TreeNode.BuildChildTree (fuel + 1) sh n = some (t, e)) :
    e = none ∧
    TreeNode.forEachChild (TreeNode.childStep (TreeNode.BuildChildTree fuel sh) sh) n.children
      = some t.children ∧
    t.Path = n.Path ∧ t.Name = n.Name ∧ t.Hash = n.Hash ∧ t.Size = n.Size ∧
    t.Dir = n.Dir ∧ t.Deep = n.Deep := by
  rw [TreeNode.BuildChildTree_succ] at h
  by_cases h0 : n.children.length = 0
  · simp only [h0, hd, Bool.not_true, Bool.false_or, decide_True, if_true, Option.some.injEq,
      Prod.mk.injEq] at h
    obtain ⟨rfl, rfl⟩ := h
    rw [TreeNode.children_eq_nil_of_length h0]
    exact ⟨rfl, rfl, rfl, rfl, rfl, rfl, rfl, rfl⟩
  · simp only [h0, hd, Bool.not_true, Bool.false_or, decide_False, Bool.false_eq_true,
      if_false] at h
    cases hcs : TreeNode.forEachChild
        (TreeNode.childStep (TreeNode.BuildChildTree fuel sh) sh) n.children with
    | none => rw [hcs] at h; cases h
    | some cs =>
      rw [hcs] at h
      simp only [Option.map_some', Option.some.injEq, Prod.mk.injEq] at h
      obtain ⟨rfl, rfl⟩ := h
      exact ⟨rfl, rfl, rfl, rfl, rfl, rfl, hd.symm, rfl⟩

theorem TreeNode.childStep_leaf (recur : TreeNode → Option (TreeNode × GoError)) (sh : Shell)
    {c : TreeNode} (hc : c.Dir = false) : TreeNode.childStep recur sh c = some c := by
  simp [TreeNode.childStep, hc]

theorem TreeNode.childStep_fail (recur : TreeNode → Option (TreeNode × GoError)) (sh : Shell)
    {c : TreeNode} (hf : sh.DagGet c.Hash = none) : TreeNode.childStep recur sh c = some c := by
  unfold TreeNode.childStep
  split
  · rfl
  · rw [hf]

/-! ## Failure containment -/

/-- C3, as stated, fails on the code: with three siblings `a`, `b`, `d`, the
link-fetch failing for the directory `b` only, the failing child `b` is still a
child of the root after `BuildChildTree`. -/
theorem failing_child_is_not_removed :
    exampleB.Dir = true ∧ siblingShell.DagGet exampleB.Hash = none ∧
    exampleD.Dir = true ∧ (siblingShell.DagGet exampleD.Hash).isSome = true ∧
    siblingRoot.children = [exampleA, exampleB, exampleD] ∧
    ∃ t, TreeNode.BuildChildTree 3 siblingShell siblingRoot = some (t, none) ∧
      exampleB ∈ t.children :=
  ⟨rfl, rfl, rfl, rfl, rfl, siblingTree, rfl, List.Mem.tail _ (List.Mem.head _)⟩

/-- C3, amended. When the link-fetch fails for the directory child `c` at
position `k` and succeeds for every other directory child, a returning
`BuildChildTree` keeps all N children in place: `c` is still at position `k`,
unchanged; every other directory child has been replaced by the expansion of
itself with its links attached; every non-directory child is untouched. -/
theorem one_failing_child_is_kept (fuel : Nat) (sh : Shell) (n c t : TreeNode) (e : GoError)
    (k : Nat) (hd : n.Dir = true) (hk : n.children[k]? = some c) (_hc : c.Dir = true)
    (hf : sh.DagGet c.Hash = none)
    (hok : ∀ i d, i ≠ k → n.children[i]? = some d → d.Dir = true →
      (sh.DagGet d.Hash).isSome = true)
    (hrun : TreeNode.BuildChildTree fuel sh n = some (t, e)) :
    t.children.length = n.children.length ∧ t.children[k]? = some c ∧
    ∀ i d, i ≠ k → n.children[i]? = some d →
      (d.Dir = false → t.children[i]? = some d) ∧
      (d.Dir = true → ∃ resp d' fuel' e', sh.DagGet d.Hash = some resp ∧
        t.children[i]? = some d' ∧
        TreeNode.BuildChildTree fuel' sh (d.attachLinks sh resp.Links) = some (d', e')) := by
  cases fuel with
  | zero => simp [TreeNode.BuildChildTree] at hrun
  | succ fuel =>
    obtain ⟨-, hloop, -⟩ := TreeNode.BuildChildTree_dir hd hrun
    have hget := TreeNode.forEachChild_getElem? hloop
    refine ⟨TreeNode.forEachChild_length hloop, ?_, ?_⟩
    · rw [hget k, hk]
      exact TreeNode.childStep_fail _ sh hf
    · intro i d hi hid
      have hti := hget i
      rw [hid] at hti
      refine ⟨fun hleaf => ?_, fun hdir => ?_⟩
      · rw [hti]; exact TreeNode.childStep_leaf _ sh hleaf
      · obtain ⟨resp, hresp⟩ := Option.isSome_iff_exists.mp (hok i d hi hid hdir)
        have hlt : i < t.children.length := by
          rw [TreeNode.forEachChild_length hloop]
          exact (List.getElem?_eq_some_iff.mp hid).1
        obtain ⟨d', hd'⟩ : ∃ d', t.children[i]? = some d' :=
          ⟨_, List.getElem?_eq_getElem hlt⟩
        rw [hd'] at hti
        simp only [Option.some_bind, TreeNode.childStep, hdir, Bool.not_true,
          Bool.false_eq_true, if_false, hresp] at hti
        cases hrec : TreeNode.BuildChildTree fuel sh (d.attachLinks sh resp.Links) with
        | none => rw [hrec] at hti; cases hti
        | some r =>
          obtain ⟨d'', e'⟩ := r
          rw [hrec] at hti
          have hdd : d' = d'' := by simpa using hti
          subst hdd
          exact ⟨resp, d', fuel, e', hresp, hd', hrec⟩

/-- The amended C3 on the three siblings `a`, `b`, `d` with `b` failing. -/
theorem one_failing_child_is_kept_witness :
    siblingTree.children.length = siblingRoot.children.length ∧
    siblingTree.children[1]? = some exampleB ∧
    ∀ i d, i ≠ 1 → siblingRoot.children[i]? = some d →
      (d.Dir = false → siblingTree.children[i]? = some d) ∧
      (d.Dir = true → ∃ resp d' fuel' e', siblingShell.DagGet d.Hash = some resp ∧
        siblingTree.children[i]? = some d' ∧
        TreeNode.BuildChildTree fuel' siblingShell (d.attachLinks siblingShell resp.Links)
          = some (d', e')) :=
  one_failing_child_is_kept 3 siblingShell siblingRoot exampleB siblingTree none 1 rfl rfl rfl rfl
    (by
      intro i d hi hid hdir
      match i, hi, hid with
      | 0, _, hid => cases hid; cases hdir
      | 2, _, hid => cases hid; rfl
      | i + 3, _, hid => cases hid)
    rfl

/-- C4. When the link-fetch of the directory child `c` fails, `BuildChildTree`
leaves `c` at its position with its own child list unchanged, and the children
before and after `c` come out exactly as they do in the runs on those children
alone, where `c` plays no part; the run returns with no error. -/
theorem failing_child_is_skipped (fuel : Nat) (sh : Shell) (n c tpre tpost : TreeNode)
    (e1 e2 : GoError) (pre post : List TreeNode)
    (hd : n.Dir = true) (hn : n.Child = some (pre ++ c :: post)) (_hc : c.Dir = true)
    (hf : sh.DagGet c.Hash = none)
    (hpre : TreeNode.BuildChildTree fuel sh { n with Child := some pre } = some (tpre, e1))
    (hpost : TreeNode.BuildChildTree fuel sh { n with Child := some post } = some (tpost, e2)) :
    TreeNode.BuildChildTree fuel sh n =
      some ({ n with Child := some (tpre.children ++ c :: tpost.children) }, none) ∧
    tpre.children.length = pre.length ∧ tpost.children.length = post.length := by
  cases fuel with
  | zero => simp [TreeNode.BuildChildTree] at hpre
  | succ fuel =>
    obtain ⟨-, hlpre, -⟩ := TreeNode.BuildChildTree_dir (n := { n with Child := some pre }) hd hpre
    obtain ⟨-, hlpost, -⟩ :=
      TreeNode.BuildChildTree_dir (n := { n with Child := some post }) hd hpost
    have hpre' : TreeNode.forEachChild
        (TreeNode.childStep (TreeNode.BuildChildTree fuel sh) sh) pre = some tpre.children :=
      hlpre
    have hpost' : TreeNode.forEachChild
        (TreeNode.childStep (TreeNode.BuildChildTree fuel sh) sh) post = some tpost.children :=
      hlpost
    have hch : n.children = pre ++ c :: post := by simp [TreeNode.children, hn]
    refine ⟨?_, TreeNode.forEachChild_length hpre', TreeNode.forEachChild_length hpost'⟩
    have hlen : ¬ n.children.length = 0 := by simp [hch]
    rw [TreeNode.BuildChildTree_succ]
    simp only [hd, hlen, Bool.not_true, Bool.false_or, decide_False, Bool.false_eq_true,
      if_false]
    rw [hch, TreeNode.forEachChild_append, TreeNode.forEachChild_cons, hpre', hpost',
      TreeNode.childStep_fail _ sh hf]
    rfl

/-- C4 on the worked example: with the fetch of `b` failing the result is
root -> [a(leaf,10), b(dir, no children)]. -/
theorem failing_child_is_skipped_witness :
    TreeNode.BuildChildTree 3 exampleShellFailB exampleRoot =
      some ({ exampleRoot with Child := some ([exampleA] ++ exampleB :: []) }, none) ∧
    [exampleA].length = 1 ∧ ([] : List TreeNode).length = 0 :=
  failing_child_is_skipped 3 exampleShellFailB exampleRoot exampleB
    { exampleRoot with Child := some [exampleA] } { exampleRoot with Child := some [] }
    none none [exampleA] [] rfl rfl rfl rfl rfl rfl

/-! ## Node construction -/

/-- C5. `NewNodeByDataCid` returns nil when the stat call fails or reports a
type other than "directory" and "file"; otherwise it returns the node with the
identifier as hash, the joined path, the name, the reported cumulative size, the
directory flag set exactly for type "directory", and an empty child sequence. -/
theorem newNodeByDataCid_result (sh : Shell) (dataCid nodePath name : String) :
    (sh.FilesStat (pathJoin "/ipfs/" [dataCid]) = none →
      NewNodeByDataCid sh dataCid nodePath name = none) ∧
    (∀ stat, sh.FilesStat (pathJoin "/ipfs/" [dataCid]) = some stat →
      stat.Type_ ≠ "directory" → stat.Type_ ≠ "file" →
      NewNodeByDataCid sh dataCid nodePath name = none) ∧
    (∀ stat, sh.FilesStat (pathJoin "/ipfs/" [dataCid]) = some stat →
      (stat.Type_ = "directory" ∨ stat.Type_ = "file") →
      NewNodeByDataCid sh dataCid nodePath name =
        some { Hash := dataCid, Path := pathJoin nodePath [dataCid], Name := name,
               Size := stat.CumulativeSize, Dir := decide (stat.Type_ = "directory"),
               Deep := 0, Child := some [] }) := by
  refine ⟨?_, ?_, ?_⟩
  · intro h
    simp [NewNodeByDataCid, h]
  · intro stat h h1 h2
    simp [NewNodeByDataCid, h, h1, h2]
  · intro stat h hty
    rcases hty with hdir | hfile
    · simp [NewNodeByDataCid, h, hdir, NewNode]
    · have hnd : stat.Type_ ≠ "directory" := by rw [hfile]; decide
      simp [NewNodeByDataCid, h, hfile, NewNode]

/-! ## Attaching links -/

/-- The nodes the inner loop resolves from a list of links, in link order. -/
theorem TreeNode.attachLinks_eq (sh : Shell) (c : TreeNode) (links : List DagLink) :
    c.attachLinks sh links =
      if c.Child.isSome then
        { c with Child := some (c.children ++
            links.filterMap (fun l => NewNodeByDataCid sh l.Target c.Path l.Name)) }
      else c := by
  unfold TreeNode.attachLinks
  induction links generalizing c with
  | nil =>
    obtain ⟨p, nm, hs, s, d, dp, ch⟩ := c
    cases ch <;> simp [TreeNode.children]
  | cons l links ih =>
    rw [List.foldl_cons]
    cases hnew : NewNodeByDataCid sh l.Target c.Path l.Name with
    | none =>
      simp only [List.filterMap_cons, hnew]
      exact ih c
    | some sub =>
      simp only [List.filterMap_cons, hnew]
      rw [ih]
      obtain ⟨p, nm, hs, s, d, dp, ch⟩ := c
      cases ch <;>
        simp [TreeNode.AddChild, TreeNode.appendChild, TreeNode.children]

theorem NewNodeByDataCid_some {sh : Shell} {dataCid nodePath name : String} {m : TreeNode}
    (h : NewNodeByDataCid sh dataCid nodePath name = some m) :
    m.Hash = dataCid ∧ m.Name = name ∧ m.Path = pathJoin nodePath [dataCid] ∧
    m.Child = some [] ∧ m.Deep = 0 ∧
    ∃ stat, sh.FilesStat (pathJoin "/ipfs/" [dataCid]) = some stat ∧
      m.Size = stat.CumulativeSize ∧ (m.Dir = true ↔ stat.Type_ = "directory") ∧
      (stat.Type_ = "directory" ∨ stat.Type_ = "file") := by
  unfold NewNodeByDataCid at h
  cases hst : sh.FilesStat (pathJoin "/ipfs/" [dataCid]) with
  | none => simp [hst] at h
  | some stat =>
    simp only [hst] at h
    by_cases hdir : stat.Type_ = "directory"
    · rw [if_pos hdir] at h
      cases h
      exact ⟨rfl, rfl, rfl, rfl, rfl, stat, rfl, rfl, by simp [NewNode, hdir], Or.inl hdir⟩
    · rw [if_neg hdir] at h
      by_cases hfile : stat.Type_ = "file"
      · rw [if_pos hfile] at h
        cases h
        exact ⟨rfl, rfl, rfl, rfl, rfl, stat, rfl, rfl, by simp [NewNode, hdir], Or.inr hfile⟩
      · rw [if_neg hfile] at h
        cases h

/-! ## Termination -/

theorem TreeNode.depthBoundList_le (rank : String → Nat) {cs : List TreeNode} {b : Nat}
    (h : ∀ c ∈ cs, TreeNode.depthBound rank c + 1 ≤ b) :
    TreeNode.depthBoundList rank cs ≤ b := by
  induction cs with
  | nil => simp [TreeNode.depthBoundList]
  | cons c cs ih =>
    rw [TreeNode.depthBoundList]
    exact max_le (h c (List.mem_cons_self _ _)) (ih (fun d hd => h d (List.mem_cons_of_mem _ hd)))

theorem TreeNode.depthBound_lt_list (rank : String → Nat) {cs : List TreeNode} {c : TreeNode}
    (h : c ∈ cs) : TreeNode.depthBound rank c + 1 ≤ TreeNode.depthBoundList rank cs := by
  induction cs with
  | nil => cases h
  | cons d cs ih =>
    rw [TreeNode.depthBoundList]
    rcases List.mem_cons.mp h with rfl | h
    · exact le_max_left _ _
    · exact le_trans (ih h) (le_max_right _ _)

theorem TreeNode.depthBound_eq (rank : String → Nat) (n : TreeNode) :
    TreeNode.depthBound rank n = max (rank n.Hash) (TreeNode.depthBoundList rank n.children) := by
  obtain ⟨p, nm, hs, s, d, dp, ch⟩ := n
  cases ch <;> simp [TreeNode.depthBound, TreeNode.depthBoundSlice, TreeNode.children,
    TreeNode.depthBoundList]

/-- Attaching the links of an acyclic store does not raise the bound. -/
theorem TreeNode.depthBound_attachLinks {sh : Shell} {rank : String → Nat}
    (hacy : Acyclic sh rank) {c : TreeNode} {resp : DagGetResponse}
    (hresp : sh.DagGet c.Hash = some resp) :
    TreeNode.depthBound rank (c.attachLinks sh resp.Links) ≤ TreeNode.depthBound rank c := by
  rw [TreeNode.attachLinks_eq]
  split
  · rw [TreeNode.depthBound_eq, TreeNode.depthBound_eq rank c]
    apply max_le (le_max_left _ _)
    apply TreeNode.depthBoundList_le
    intro d hd
    have hd' : d ∈ c.children ++
        resp.Links.filterMap (fun l => NewNodeByDataCid sh l.Target c.Path l.Name) := by
      simpa [TreeNode.children] using hd
    rcases List.mem_append.mp hd' with hold | hnew
    · exact le_trans (TreeNode.depthBound_lt_list rank hold) (le_max_right _ _)
    · obtain ⟨l, hl, hres⟩ := List.mem_filterMap.mp hnew
      obtain ⟨hhash, -, -, hch, -⟩ := NewNodeByDataCid_some hres
      have hrank : rank l.Target < rank c.Hash := hacy _ _ hresp l hl
      have hb : TreeNode.depthBound rank d = rank l.Target := by
        rw [TreeNode.depthBound_eq, hhash]
        simp [TreeNode.children, hch, TreeNode.depthBoundList]
      rw [hb]
      exact le_trans hrank (le_max_left _ _)
  · exact le_refl _

theorem TreeNode.forEachChild_isSome {f : TreeNode → Option TreeNode} {cs : List TreeNode}
    (h : ∀ c ∈ cs, ∃ c', f c = some c') : ∃ cs', TreeNode.forEachChild f cs = some cs' := by
  induction cs with
  | nil => exact ⟨[], rfl⟩
  | cons c cs ih =>
    obtain ⟨c', hc'⟩ := h c (List.mem_cons_self _ _)
    obtain ⟨cs', hcs'⟩ := ih (fun d hd => h d (List.mem_cons_of_mem _ hd))
    exact ⟨c' :: cs', by rw [TreeNode.forEachChild_cons, hc', hcs']; rfl⟩

/-- A budget above the bound is enough for `BuildChildTree` to return. -/
theorem TreeNode.BuildChildTree_returns {sh : Shell} {rank : String → Nat}
    (hacy : Acyclic sh rank) (fuel : Nat) (n : TreeNode)
    (hfuel : TreeNode.depthBound rank n < fuel) :
    ∃ t, TreeNode.BuildChildTree fuel sh n = some (t, none) := by
  induction fuel generalizing n with
  | zero => omega
  | succ fuel ih =>
    rw [TreeNode.BuildChildTree_succ]
    split
    · exact ⟨n, rfl⟩
    · have hall : ∀ c ∈ n.children, ∃ c',
          TreeNode.childStep (TreeNode.BuildChildTree fuel sh) sh c = some c' := by
        intro c hc
        have hcb : TreeNode.depthBound rank c < fuel := by
          have h1 := TreeNode.depthBound_lt_list rank hc
          have h2 : TreeNode.depthBoundList rank n.children ≤ TreeNode.depthBound rank n := by
            rw [TreeNode.depthBound_eq rank n]; exact le_max_right _ _
          omega
        unfold TreeNode.childStep
        split
        · exact ⟨c, rfl⟩
        · cases hresp : sh.DagGet c.Hash with
          | none => exact ⟨c, rfl⟩
          | some resp =>
            obtain ⟨t, ht⟩ := ih (c.attachLinks sh resp.Links)
              (lt_of_le_of_lt (TreeNode.depthBound_attachLinks hacy hresp) hcb)
            exact ⟨t, by simp [ht]⟩
      obtain ⟨cs', hcs'⟩ := TreeNode.forEachChild_isSome hall
      exact ⟨_, by rw [hcs']; rfl⟩

/-- A larger budget does not change the result of a returning run. -/
theorem TreeNode.BuildChildTree_mono {sh : Shell} {fuel : Nat} {n : TreeNode}
    {r : TreeNode × GoError} (h : TreeNode.BuildChildTree fuel sh n = some r) :
    TreeNode.BuildChildTree (fuel + 1) sh n = some r := by
  induction fuel generalizing n r with
  | zero => simp [TreeNode.BuildChildTree] at h
  | succ fuel ih =>
    rw [TreeNode.BuildChildTree_succ] at h ⊢
    split at h
    · rename_i hc; rw [if_pos hc]; exact h
    · rename_i hc
      rw [if_neg hc]
      cases hcs : TreeNode.forEachChild
          (TreeNode.childStep (TreeNode.BuildChildTree fuel sh) sh) n.children with
      | none => rw [hcs] at h; cases h
      | some cs =>
        rw [hcs] at h
        have hcs' : TreeNode.forEachChild
            (TreeNode.childStep (TreeNode.BuildChildTree (fuel + 1) sh) sh) n.children
              = some cs := by
          rw [TreeNode.forEachChild_some_iff] at hcs ⊢
          refine hcs.imp ?_
          intro c c' hstep
          unfold TreeNode.childStep at hstep ⊢
          split
          · rename_i hl; rw [if_pos hl] at hstep; exact hstep
          · rename_i hl
            rw [if_neg hl] at hstep
            cases hresp : sh.DagGet c.Hash with
            | none => rw [hresp] at hstep; exact hstep
            | some resp =>
              rw [hresp] at hstep
              simp only at hstep ⊢
              cases hrec : TreeNode.BuildChildTree fuel sh (c.attachLinks sh resp.Links) with
              | none => rw [hrec] at hstep; cases hstep
              | some r' => rw [ih hrec]; rw [hrec] at hstep; exact hstep
        rw [hcs']
        exact h

theorem TreeNode.BuildChildTree_mono_le {sh : Shell} {fuel fuel' : Nat} {n : TreeNode}
    {r : TreeNode × GoError} (hle : fuel ≤ fuel')
    (h : TreeNode.BuildChildTree fuel sh n = some r) :
    TreeNode.BuildChildTree fuel' sh n = some r := by
  induction hle with
  | refl => exact h
  | step _ ih => exact TreeNode.BuildChildTree_mono ih

/-- C7. On an acyclic link graph (the rank decreases along every link), with
any stat or link-fetch call failing, the recursive walk of `BuildChildTree`
returns from every starting tree: every budget above the depth bound of the
tree is enough, and all of them give the same tree and no error. -/
theorem buildChildTree_terminates (sh : Shell) (rank : String → Nat) (n : TreeNode)
    (hacy : Acyclic sh rank) :
    ∃ t, ∀ fuel, TreeNode.depthBound rank n < fuel →
      TreeNode.BuildChildTree fuel sh n = some (t, none) := by
  obtain ⟨t, ht⟩ := TreeNode.BuildChildTree_returns hacy (TreeNode.depthBound rank n + 1) n
    (Nat.lt_succ_self _)
  exact ⟨t, fun fuel hfuel => TreeNode.BuildChildTree_mono_le hfuel ht⟩

theorem exampleShell_acyclic : Acyclic exampleShell exampleRank := by
  intro h resp hr l hl
  simp only [exampleShell] at hr
  split_ifs at hr with h1 h2
  · cases hr
    subst h1
    simp only [List.mem_cons, List.mem_singleton, List.not_mem_nil, or_false] at hl
    rcases hl with rfl | rfl <;> decide
  · cases hr
    subst h2
    simp only [List.mem_singleton] at hl
    subst hl
    decide

theorem exampleShell_resolves : Resolves exampleShell := by
  intro h resp hr l hl
  simp only [exampleShell] at hr
  split_ifs at hr with h1 h2
  · cases hr
    simp only [List.mem_cons, List.mem_singleton, List.not_mem_nil, or_false] at hl
    rcases hl with rfl | rfl
    · exact ⟨⟨"file", 10⟩, rfl, Or.inr rfl, fun hd => absurd hd (by decide)⟩
    · exact ⟨⟨"directory", 20⟩, rfl, Or.inl rfl, fun _ => ⟨_, rfl⟩⟩
  · cases hr
    simp only [List.mem_singleton] at hl
    subst hl
    exact ⟨⟨"file", 20⟩, rfl, Or.inr rfl, fun hd => absurd hd (by decide)⟩

/-- The theorem C7 on the worked example. -/
theorem buildChildTree_terminates_witness :
    ∃ t, ∀ fuel, TreeNode.depthBound exampleRank exampleRoot < fuel →
      TreeNode.BuildChildTree fuel exampleShell exampleRoot = some (t, none) :=
  buildChildTree_terminates exampleShell exampleRank exampleRoot exampleShell_acyclic

/-! ## Full resolution -/

theorem NewNodeByDataCid_of_stat {sh : Shell} {dataCid : String} {stat : FilesStatObject}
    (nodePath name : String)
    (hst : sh.FilesStat (pathJoin "/ipfs/" [dataCid]) = some stat)
    (hty : stat.Type_ = "directory" ∨ stat.Type_ = "file") :
    NewNodeByDataCid sh dataCid nodePath name =
      some { Hash := dataCid, Path := pathJoin nodePath [dataCid], Name := name,
             Size := stat.CumulativeSize, Dir := decide (stat.Type_ = "directory"),
             Deep := 0, Child := some [] } := by
  rcases hty with hdir | hfile
  · simp [NewNodeByDataCid, hst, hdir, NewNode]
  · have hnd : stat.Type_ ≠ "directory" := by rw [hfile]; decide
    simp [NewNodeByDataCid, hst, hfile, NewNode]

theorem TreeNode.sameLabel_refl (a : TreeNode) : a.sameLabel a :=
  ⟨rfl, rfl, rfl, rfl, rfl, rfl⟩

theorem linkOf_of_sameLabel {sh : Shell} {path : String} {d d' : TreeNode} {l : DagLink}
    (h : linkOf sh path d l) (hs : d'.sameLabel d) : linkOf sh path d' l := by
  obtain ⟨h1, h2, h3, stat, h4, h5, h6⟩ := h
  obtain ⟨s1, s2, s3, s4, s5, -⟩ := hs
  exact ⟨s3.trans h1, s2.trans h2, s1.trans h3, stat, h4, s4.trans h5, by rw [s5]; exact h6⟩

theorem linkOf_of_resolved {sh : Shell} {path : String} {d : TreeNode} {l : DagLink}
    (h : NewNodeByDataCid sh l.Target path l.Name = some d) : linkOf sh path d l := by
  obtain ⟨h1, h2, h3, -, -, stat, h4, h5, h6, -⟩ := NewNodeByDataCid_some h
  exact ⟨h1, h2, h3, stat, h4, h5, h6⟩

theorem Mirrors_leaf {sh : Shell} {d : TreeNode} (hd : d.Dir = false) (hc : d.children = []) :
    Mirrors sh d := by
  intro m hm
  rw [TreeNode.preorder_eq, hc] at hm
  simp only [List.flatMap_nil, List.mem_singleton] at hm
  subst hm
  exact ⟨fun h => by rw [hd] at h; exact absurd h (by decide), fun _ => hc⟩

/-- Running a loop body over the nodes resolved from a list of links. -/
theorem TreeNode.forEachChild_resolved {f : TreeNode → Option TreeNode}
    {g : DagLink → Option TreeNode} {Q : TreeNode → DagLink → Prop} {M : TreeNode → Prop}
    (links : List DagLink)
    (h : ∀ l ∈ links, ∃ d d', g l = some d ∧ f d = some d' ∧ Q d' l ∧ M d') :
    ∃ cs', TreeNode.forEachChild f (links.filterMap g) = some cs' ∧
      List.Forall₂ Q cs' links ∧ ∀ d' ∈ cs', M d' := by
  induction links with
  | nil => exact ⟨[], rfl, List.Forall₂.nil, fun _ hd => by cases hd⟩
  | cons l links ih =>
    obtain ⟨d, d', hg, hf, hq, hm⟩ := h l (List.mem_cons_self _ _)
    obtain ⟨cs', hcs', hq', hm'⟩ := ih (fun l' hl' => h l' (List.mem_cons_of_mem _ hl'))
    refine ⟨d' :: cs', ?_, List.Forall₂.cons hq hq', ?_⟩
    · rw [List.filterMap_cons, hg]
      simp only
      rw [TreeNode.forEachChild_cons, hf, hcs']
      rfl
    · intro x hx
      rcases List.mem_cons.mp hx with rfl | hx
      · exact hm
      · exact hm' x hx

/-- Expanding a directory whose children are the nodes resolved from its own
links, on a store where everything resolves, yields the mirror of the link graph
below it. -/
theorem TreeNode.BuildChildTree_mirrors {sh : Shell} {rank : String → Nat}
    (hacy : Acyclic sh rank) (hres : Resolves sh) (fuel : Nat) (c : TreeNode)
    (resp : DagGetResponse) (hdir : c.Dir = true) (hresp : sh.DagGet c.Hash = some resp)
    (hch : c.Child = some
      (resp.Links.filterMap (fun l => NewNodeByDataCid sh l.Target c.Path l.Name)))
    (hfuel : rank c.Hash < fuel) :
    ∃ t, TreeNode.BuildChildTree fuel sh c = some (t, none) ∧ t.sameLabel c ∧ Mirrors sh t := by
  induction fuel generalizing c resp with
  | zero => omega
  | succ fuel ih =>
    have hkids : c.children =
        resp.Links.filterMap (fun l => NewNodeByDataCid sh l.Target c.Path l.Name) := by
      simp [TreeNode.children, hch]
    have hall : ∀ l ∈ resp.Links, ∃ d d',
        NewNodeByDataCid sh l.Target c.Path l.Name = some d ∧
        TreeNode.childStep (TreeNode.BuildChildTree fuel sh) sh d = some d' ∧
        linkOf sh c.Path d' l ∧ Mirrors sh d' := by
      intro l hl
      obtain ⟨stat, hst, hty, hget⟩ := hres _ _ hresp l hl
      have hnew := NewNodeByDataCid_of_stat c.Path l.Name hst hty
      by_cases hsd : stat.Type_ = "directory"
      · obtain ⟨r, hr⟩ := hget hsd
        have hrank : rank l.Target < fuel := by
          have := hacy _ _ hresp l hl
          omega
        obtain ⟨t, ht, hlab, hmir⟩ := ih
          { Hash := l.Target, Path := pathJoin c.Path [l.Target], Name := l.Name,
            Size := stat.CumulativeSize, Dir := decide (stat.Type_ = "directory"),
            Deep := 0,
            Child := some (r.Links.filterMap
              (fun l' => NewNodeByDataCid sh l'.Target (pathJoin c.Path [l.Target]) l'.Name)) }
          r (by simp [hsd]) hr rfl hrank
        refine ⟨_, t, hnew, ?_, linkOf_of_sameLabel (linkOf_of_resolved hnew) hlab, hmir⟩
        simp only [TreeNode.childStep, hsd, decide_True, Bool.not_true, Bool.false_eq_true,
          if_false, hr, TreeNode.attachLinks_eq, Option.isSome_some, if_true,
          TreeNode.children, Option.getD_some, List.nil_append]
        simp only [hsd, decide_True] at ht
        rw [ht]
      · refine ⟨_, _, hnew, ?_, linkOf_of_resolved hnew, Mirrors_leaf (by simp [hsd]) rfl⟩
        simp [TreeNode.childStep, hsd]
    obtain ⟨cs', hcs', hq, hm⟩ := TreeNode.forEachChild_resolved resp.Links hall
    rw [← hkids] at hcs'
    have hlen := TreeNode.forEachChild_length hcs'
    refine ⟨{ c with Child := some cs' }, ?_, ⟨rfl, rfl, rfl, rfl, rfl, rfl⟩, ?_⟩
    · rw [TreeNode.BuildChildTree_succ]
      split
      · rename_i hcond
        have h0 : c.children.length = 0 := by simpa [hdir] using hcond
        have hnil : cs' = [] := List.length_eq_zero.mp (hlen.trans h0)
        have hcnil : c.Child = some [] := by
          rw [hch, ← hkids, TreeNode.children_eq_nil_of_length h0]
        have hsame : ({ c with Child := some cs' } : TreeNode) = c := by
          obtain ⟨p, nm, hs, s, d, dp, ch⟩ := c
          simp only at hcnil
          simp [hnil, hcnil]
        rw [hsame]
      · rw [hcs']; rfl
    · intro m hmem
      rw [TreeNode.preorder_eq] at hmem
      rcases List.mem_cons.mp hmem with rfl | hmem
      · refine ⟨fun _ => ⟨resp, hresp, ?_⟩, fun hf => ?_⟩
        · simpa [TreeNode.children] using hq
        · simp [hdir] at hf
      · obtain ⟨d', hd', hmd⟩ := List.mem_flatMap.mp hmem
        have hd'' : d' ∈ cs' := by simpa [TreeNode.children] using hd'
        exact hm d' hd'' m hmd

/-- C6. On an acyclic link graph where every stat and every link-fetch
succeeds, `BuildChildTree` on a directory root whose children are the nodes
resolved from the links of the root returns, keeps the fields of the root, and
leaves exactly the reachable nodes: the children of every directory node stand
one-to-one and in link order for the links of its hash (same hash, name, size
and directory flag), and file nodes have no children. The worked example
resolves to root -> [a(leaf,10), b(dir) -> [c(leaf,20)]]. -/
theorem resolution_mirrors_link_graph (sh : Shell) (rank : String → Nat) (root : TreeNode)
    (resp : DagGetResponse) (hacy : Acyclic sh rank) (hres : Resolves sh)
    (hdir : root.Dir = true) (hresp : sh.DagGet root.Hash = some resp)
    (hch : root.Child = some
      (resp.Links.filterMap (fun l => NewNodeByDataCid sh l.Target root.Path l.Name))) :
    (∃ t, (∀ fuel, rank root.Hash < fuel →
        TreeNode.BuildChildTree fuel sh root = some (t, none)) ∧
      t.sameLabel root ∧ Mirrors sh t) ∧
    TreeNode.BuildChildTree 3 exampleShell exampleRoot = some (exampleTree, none) := by
  refine ⟨?_, rfl⟩
  obtain ⟨t, ht, hlab, hmir⟩ := TreeNode.BuildChildTree_mirrors hacy hres (rank root.Hash + 1)
    root resp hdir hresp hch (Nat.lt_succ_self _)
  exact ⟨t, fun fuel hfuel => TreeNode.BuildChildTree_mono_le hfuel ht, hlab, hmir⟩

/-- The theorem C6 on the worked example of the spec. -/
theorem resolution_mirrors_link_graph_witness :
    (∃ t, (∀ fuel, exampleRank exampleRoot.Hash < fuel →
        TreeNode.BuildChildTree fuel exampleShell exampleRoot = some (t, none)) ∧
      t.sameLabel exampleRoot ∧ Mirrors exampleShell t) ∧
    TreeNode.BuildChildTree 3 exampleShell exampleRoot = some (exampleTree, none) :=
  resolution_mirrors_link_graph exampleShell exampleRank exampleRoot
    ⟨"", [⟨"Qa", "a", 10⟩, ⟨"Qb", "b", 20⟩]⟩ exampleShell_acyclic exampleShell_resolves
    rfl rfl rfl

/-! ## The leaf invariant -/

theorem LeafInv_iff (t : TreeNode) :
    LeafInv t ↔ (t.Dir = false → t.children = []) ∧ ∀ c ∈ t.children, LeafInv c := by
  constructor
  · intro h
    exact ⟨h t t.mem_preorder_self,
      fun c hc m hm => h m (TreeNode.mem_preorder_of_child hc hm)⟩
  · rintro ⟨h1, h2⟩ m hm
    rw [TreeNode.preorder_eq] at hm
    rcases List.mem_cons.mp hm with rfl | hm
    · exact h1
    · obtain ⟨c, hc, hmc⟩ := List.mem_flatMap.mp hm
      exact h2 c hc m hmc

theorem LeafInv_of_no_children {t : TreeNode} (h : t.children = []) : LeafInv t := by
  rw [LeafInv_iff]
  exact ⟨fun _ => h, fun c hc => by rw [h] at hc; cases hc⟩

theorem LeafInv_resolved {sh : Shell} {dataCid nodePath name : String} {m : TreeNode}
    (h : NewNodeByDataCid sh dataCid nodePath name = some m) : LeafInv m := by
  obtain ⟨-, -, -, hch, -⟩ := NewNodeByDataCid_some h
  exact LeafInv_of_no_children (by simp [TreeNode.children, hch])

theorem LeafInv_appendChild {t c : TreeNode} (hd : t.Dir = true) (ht : LeafInv t)
    (hc : LeafInv c) : LeafInv (t.appendChild c) := by
  rw [LeafInv_iff] at ht ⊢
  refine ⟨fun hf => ?_, fun d hd' => ?_⟩
  · have : t.Dir = false := hf
    rw [hd] at this
    exact absurd this (by decide)
  · have hmem : d ∈ t.children ++ [c] := by
      simpa [TreeNode.appendChild, TreeNode.children] using hd'
    rcases List.mem_append.mp hmem with hold | hnew
    · exact ht.2 d hold
    · rw [List.mem_singleton.mp hnew]; exact hc

theorem LeafInv_attachLinks {sh : Shell} {c : TreeNode} (links : List DagLink)
    (hd : c.Dir = true) (hc : LeafInv c) : LeafInv (c.attachLinks sh links) := by
  rw [TreeNode.attachLinks_eq]
  split
  · rw [LeafInv_iff] at hc ⊢
    refine ⟨fun hf => ?_, fun d hd' => ?_⟩
    · have : c.Dir = false := hf
      rw [hd] at this
      exact absurd this (by decide)
    · have hmem : d ∈ c.children ++
          links.filterMap (fun l => NewNodeByDataCid sh l.Target c.Path l.Name) := by
        simpa [TreeNode.children] using hd'
      rcases List.mem_append.mp hmem with hold | hnew
      · exact hc.2 d hold
      · obtain ⟨l, -, hres⟩ := List.mem_filterMap.mp hnew
        exact LeafInv_resolved hres
  · exact hc

theorem TreeNode.forEachChild_mem {f : TreeNode → Option TreeNode} {cs cs' : List TreeNode}
    (h : TreeNode.forEachChild f cs = some cs') {c' : TreeNode} (hc' : c' ∈ cs') :
    ∃ c ∈ cs, f c = some c' := by
  rw [TreeNode.forEachChild_some_iff] at h
  induction h with
  | nil => cases hc'
  | cons h1 _ ih =>
    rcases List.mem_cons.mp hc' with rfl | hc'
    · exact ⟨_, List.mem_cons_self _ _, h1⟩
    · obtain ⟨c, hc, hfc⟩ := ih hc'
      exact ⟨c, List.mem_cons_of_mem _ hc, hfc⟩

theorem LeafInv_BuildChildTree {sh : Shell} {fuel : Nat} {n t : TreeNode} {e : GoError}
    (hinv : LeafInv n) (hrun : TreeNode.BuildChildTree fuel sh n = some (t, e)) :
    LeafInv t := by
  induction fuel generalizing n t e with
  | zero => simp [TreeNode.BuildChildTree] at hrun
  | succ fuel ih =>
    by_cases hd : n.Dir = true
    · obtain ⟨-, hloop, -, -, -, -, hdir, -⟩ := TreeNode.BuildChildTree_dir hd hrun
      rw [LeafInv_iff]
      refine ⟨fun hf => ?_, fun c' hc' => ?_⟩
      · rw [hdir, hd] at hf
        exact absurd hf (by decide)
      · obtain ⟨c, hc, hstep⟩ := TreeNode.forEachChild_mem hloop hc'
        have hcinv : LeafInv c := ((LeafInv_iff n).mp hinv).2 c hc
        unfold TreeNode.childStep at hstep
        split at hstep
        · cases hstep; exact hcinv
        · rename_i hcd
          have hcd' : c.Dir = true := by simpa using hcd
          cases hresp : sh.DagGet c.Hash with
          | none => rw [hresp] at hstep; cases hstep; exact hcinv
          | some resp =>
            rw [hresp] at hstep
            simp only at hstep
            cases hrec : TreeNode.BuildChildTree fuel sh (c.attachLinks sh resp.Links) with
            | none => rw [hrec] at hstep; cases hstep
            | some r =>
              obtain ⟨c'', e'⟩ := r
              rw [hrec] at hstep
              have hcc : c'' = c' := by simpa using hstep
              subst hcc
              exact ih (LeafInv_attachLinks resp.Links hcd' hcinv) hrec
    · rw [TreeNode.BuildChildTree_succ] at hrun
      have hnd : n.Dir = false := by simpa using hd
      simp only [hnd, Bool.not_false, Bool.true_or, if_true, Option.some.injEq,
        Prod.mk.injEq] at hrun
      rw [← hrun.1]
      exact hinv

/-- C8. `BuildChildTree` preserves the leaf invariant: from a tree in which
every node that is not a directory has no children, every returning run leaves
such a tree, and on an acyclic store the run does return. The nodes made by
`NewNodeByDataCid` satisfy the invariant and attaching links to a directory
keeps it, so every tree produced by resolution satisfies it. -/
theorem leaf_invariant_preserved_by_build (sh : Shell) (n : TreeNode) (hinv : LeafInv n) :
    (∀ fuel t e, TreeNode.BuildChildTree fuel sh n = some (t, e) → LeafInv t) ∧
    (∀ rank, Acyclic sh rank → ∃ t, LeafInv t ∧
      ∀ fuel, TreeNode.depthBound rank n < fuel →
        TreeNode.BuildChildTree fuel sh n = some (t, none)) ∧
    (∀ dataCid nodePath name m, NewNodeByDataCid sh dataCid nodePath name = some m →
      LeafInv m) ∧
    (∀ links, n.Dir = true → LeafInv (n.attachLinks sh links)) := by
  refine ⟨fun fuel t e hrun => LeafInv_BuildChildTree hinv hrun, ?_,
    fun _ _ _ _ h => LeafInv_resolved h, fun links hd => LeafInv_attachLinks links hd hinv⟩
  intro rank hacy
  obtain ⟨t, ht⟩ := TreeNode.BuildChildTree_returns hacy (TreeNode.depthBound rank n + 1) n
    (Nat.lt_succ_self _)
  exact ⟨t, LeafInv_BuildChildTree hinv ht,
    fun fuel hfuel => TreeNode.BuildChildTree_mono_le hfuel ht⟩

theorem exampleRoot_leafInv : LeafInv exampleRoot := by
  rw [LeafInv_iff]
  refine ⟨fun h => absurd h (by decide), fun c hc => ?_⟩
  have hc' : c ∈ [exampleA, exampleB] := hc
  simp only [List.mem_cons, List.mem_singleton, List.not_mem_nil, or_false] at hc'
  rcases hc' with rfl | rfl <;> exact LeafInv_of_no_children rfl

/-- The theorem C8 on the root of the worked example. -/
theorem leaf_invariant_preserved_by_build_witness :
    (∀ fuel t e, TreeNode.BuildChildTree fuel exampleShell exampleRoot = some (t, e) →
      LeafInv t) ∧
    (∀ rank, Acyclic exampleShell rank → ∃ t, LeafInv t ∧
      ∀ fuel, TreeNode.depthBound rank exampleRoot < fuel →
        TreeNode.BuildChildTree fuel exampleShell exampleRoot = some (t, none)) ∧
    (∀ dataCid nodePath name m,
      NewNodeByDataCid exampleShell dataCid nodePath name = some m → LeafInv m) ∧
    (∀ links, exampleRoot.Dir = true → LeafInv (exampleRoot.attachLinks exampleShell links)) :=
  leaf_invariant_preserved_by_build exampleShell exampleRoot exampleRoot_leafInv

/-! ## The pointer returned by `Find` -/

theorem TreeNode.FindRef_eq (h : String) (t : TreeNode) :
    t.FindRef h = if t.Hash = h then some [] else TreeNode.FindRefList h 0 t.children := by
  obtain ⟨p, nm, hs, s, d, dp, c⟩ := t
  rw [TreeNode.FindRef]
  cases c with
  | none => simp [TreeNode.FindRefSlice, TreeNode.children, TreeNode.FindRefList]
  | some cs => simp [TreeNode.FindRefSlice, TreeNode.children]

theorem TreeNode.FindRefList_none {h : String} {i : Nat} {cs : List TreeNode}
    (hn : TreeNode.FindRefList h i cs = none) : ∀ c ∈ cs, c.FindRef h = none := by
  induction cs generalizing i with
  | nil => intro c hc; cases hc
  | cons c cs ih =>
    rw [TreeNode.FindRefList] at hn
    cases hc : c.FindRef h with
    | some r => rw [hc] at hn; cases hn
    | none =>
      rw [hc] at hn
      intro d hd
      rcases List.mem_cons.mp hd with rfl | hd
      · exact hc
      · exact ih hn d hd

theorem TreeNode.FindRefList_some {h : String} {i : Nat} {cs : List TreeNode} {r : NodeRef}
    (hs : TreeNode.FindRefList h i cs = some r) :
    ∃ j c r', r = (i + j) :: r' ∧ cs[j]? = some c ∧ c.FindRef h = some r' ∧
      ∀ j' c', j' < j → cs[j']? = some c' → c'.FindRef h = none := by
  induction cs generalizing i with
  | nil => rw [TreeNode.FindRefList] at hs; cases hs
  | cons c cs ih =>
    rw [TreeNode.FindRefList] at hs
    cases hc : c.FindRef h with
    | some r' =>
      rw [hc] at hs
      cases hs
      exact ⟨0, c, r', rfl, by simp, hc, fun j' c' hj' => absurd hj' (Nat.not_lt_zero _)⟩
    | none =>
      rw [hc] at hs
      obtain ⟨j, d, r', hr, hj, hd, hearlier⟩ := ih hs
      refine ⟨j + 1, d, r', ?_, by simpa using hj, hd, ?_⟩
      · rw [hr]; congr 1; omega
      · intro j' c' hj' hc'
        cases j' with
        | zero =>
          have : c = c' := by simpa using hc'
          rw [← this]; exact hc
        | succ j' => exact hearlier j' c' (by omega) (by simpa using hc')

theorem TreeNode.nodeAt_cons (t : TreeNode) (i : Nat) (r : NodeRef) :
    t.nodeAt (i :: r) = (t.children[i]?).bind (fun c => c.nodeAt r) := by
  rw [TreeNode.nodeAt]
  cases t.children[i]? <;> rfl

theorem List.findSome?_of_first {α β : Type} {f : α → Option β} {l : List α} {j : Nat} {a : α}
    {b : β} (hj : l[j]? = some a) (hf : f a = some b)
    (hearlier : ∀ j' a', j' < j → l[j']? = some a' → f a' = none) :
    l.findSome? f = some b := by
  induction l generalizing j with
  | nil => cases hj
  | cons x l ih =>
    rw [List.findSome?_cons]
    cases j with
    | zero =>
      have : x = a := by simpa using hj
      rw [this, hf]
    | succ j =>
      rw [hearlier 0 x (Nat.succ_pos _) (by simp)]
      exact ih (by simpa using hj) (fun j' a' hj' ha' => hearlier (j' + 1) a' (by omega)
        (by simpa using ha'))

/-- When `FindRef` finds nothing, no node of the tree carries the hash. -/
theorem TreeNode.FindRef_none (h : String) (t : TreeNode) :
    t.FindRef h = none →
      t.Find h = none ∧ ∀ q m, t.nodeAt q = some m → m.Hash ≠ h := by
  induction t using TreeNode.induct with
  | step t ih =>
    intro hn
    rw [TreeNode.FindRef_eq] at hn
    by_cases hh : t.Hash = h
    · rw [if_pos hh] at hn; cases hn
    · rw [if_neg hh] at hn
      have hkids := TreeNode.FindRefList_none hn
      refine ⟨?_, ?_⟩
      · rw [TreeNode.Find_eq, if_neg hh, List.findSome?_eq_none_iff]
        exact fun c hc => (ih c hc (hkids c hc)).1
      · intro q m hq
        cases q with
        | nil =>
          have : t = m := by simpa [TreeNode.nodeAt] using hq
          rw [← this]; exact hh
        | cons i q =>
          rw [TreeNode.nodeAt_cons] at hq
          cases hc : t.children[i]? with
          | none => rw [hc] at hq; cases hq
          | some c =>
            rw [hc] at hq
            have hmem : c ∈ t.children := List.mem_iff_getElem?.mpr ⟨i, hc⟩
            exact (ih c hmem (hkids c hmem)).2 q m hq

/-- The position `FindRef` returns holds the node `Find` returns, which carries
the hash, and no position before it in pre-order does. -/
theorem TreeNode.FindRef_some (h : String) (t : TreeNode) :
    ∀ r, t.FindRef h = some r →
      ∃ m, t.nodeAt r = some m ∧ m.Hash = h ∧ t.Find h = some m ∧
        ∀ q m', q < r → t.nodeAt q = some m' → m'.Hash ≠ h := by
  induction t using TreeNode.induct with
  | step t ih =>
    intro r hr
    rw [TreeNode.FindRef_eq] at hr
    by_cases hh : t.Hash = h
    · rw [if_pos hh] at hr
      cases hr
      refine ⟨t, rfl, hh, by rw [TreeNode.Find_eq, if_pos hh], ?_⟩
      intro q m' hq
      cases hq
    · rw [if_neg hh] at hr
      obtain ⟨j, c, r', hrj, hj, hc, hearlier⟩ := TreeNode.FindRefList_some hr
      rw [Nat.zero_add] at hrj
      subst hrj
      have hmem : c ∈ t.children := List.mem_iff_getElem?.mpr ⟨j, hj⟩
      obtain ⟨m, hm, hmh, hfind, hfirst⟩ := ih c hmem r' hc
      refine ⟨m, ?_, hmh, ?_, ?_⟩
      · rw [TreeNode.nodeAt_cons, hj]; exact hm
      · rw [TreeNode.Find_eq, if_neg hh]
        exact List.findSome?_of_first hj hfind
          (fun j' c' hj' hc' => (TreeNode.FindRef_none h c' (hearlier j' c' hj' hc')).1)
      · intro q m' hlt hq
        cases q with
        | nil =>
          have : t = m' := by simpa [TreeNode.nodeAt] using hq
          rw [← this]; exact hh
        | cons i q =>
          rw [TreeNode.nodeAt_cons] at hq
          cases hci : t.children[i]? with
          | none => rw [hci] at hq; cases hq
          | some c' =>
            rw [hci] at hq
            cases hlt with
            | rel hij => exact (TreeNode.FindRef_none h c' (hearlier i c' hij hci)).2 q m' hq
            | cons hqr =>
              have : c' = c := by rw [hj] at hci; cases hci; rfl
              subst this
              exact hfirst q m' hqr hq

/-! ## Assignment through a pointer -/

theorem TreeNode.children_modifyAt_cons (f : TreeNode → TreeNode) (i : Nat) (r : NodeRef)
    (t : TreeNode) :
    (TreeNode.modifyAt f (i :: r) t).children = t.children.modify (TreeNode.modifyAt f r) i := by
  rw [TreeNode.modifyAt]
  cases hc : t.Child with
  | none => simp [TreeNode.children, hc]
  | some cs => simp [TreeNode.children, hc]

theorem TreeNode.sameLabel_modifyAt_cons (f : TreeNode → TreeNode) (i : Nat) (r : NodeRef)
    (t : TreeNode) : (TreeNode.modifyAt f (i :: r) t).sameLabel t := by
  rw [TreeNode.modifyAt]
  cases t.Child <;> exact ⟨rfl, rfl, rfl, rfl, rfl, rfl⟩

theorem TreeNode.nodeAt_modifyAt (f : TreeNode → TreeNode) (r : NodeRef) (t m : TreeNode)
    (h : t.nodeAt r = some m) : (TreeNode.modifyAt f r t).nodeAt r = some (f m) := by
  induction r generalizing t with
  | nil =>
    have : t = m := by simpa [TreeNode.nodeAt] using h
    rw [this]; rfl
  | cons i r ih =>
    rw [TreeNode.nodeAt_cons] at h ⊢
    rw [TreeNode.children_modifyAt_cons, List.getElem?_modify]
    cases hc : t.children[i]? with
    | none => rw [hc] at h; cases h
    | some c =>
      rw [hc] at h
      simpa using ih c h

theorem TreeNode.nodeAt_modifyAt_off (f : TreeNode → TreeNode) (r q : NodeRef) (t : TreeNode)
    (h1 : ¬ q <+: r) (h2 : ¬ r <+: q) : (TreeNode.modifyAt f r t).nodeAt q = t.nodeAt q := by
  induction r generalizing t q with
  | nil => exact absurd (List.nil_prefix (l := q)) h2
  | cons i r ih =>
    cases q with
    | nil => exact absurd (List.nil_prefix (l := i :: r)) h1
    | cons j q =>
      rw [TreeNode.nodeAt_cons, TreeNode.nodeAt_cons, TreeNode.children_modifyAt_cons,
        List.getElem?_modify]
      by_cases hij : i = j
      · subst hij
        cases hc : t.children[i]? with
        | none => rfl
        | some c =>
          simp only [if_true, Option.map_eq_map, Option.map_some', Option.some_bind]
          apply ih
          · intro hp; exact h1 ((List.cons_prefix_cons).mpr ⟨rfl, hp⟩)
          · intro hp; exact h2 ((List.cons_prefix_cons).mpr ⟨rfl, hp⟩)
      · cases hc : t.children[j]? with
        | none => rfl
        | some c => simp [hij]

theorem TreeNode.nodeAt_modifyAt_above (f : TreeNode → TreeNode) (r q : NodeRef)
    (t a : TreeNode) (hp : q <+: r) (hne : q ≠ r) (ha : t.nodeAt q = some a) :
    ∃ a', (TreeNode.modifyAt f r t).nodeAt q = some a' ∧ a'.sameLabel a ∧
      a'.children.length = a.children.length := by
  induction q generalizing t r with
  | nil =>
    have hta : t = a := by simpa [TreeNode.nodeAt] using ha
    subst hta
    cases r with
    | nil => exact absurd rfl hne
    | cons i r =>
      refine ⟨_, rfl, TreeNode.sameLabel_modifyAt_cons f i r t, ?_⟩
      rw [TreeNode.children_modifyAt_cons, List.length_modify]
  | cons j q ih =>
    cases r with
    | nil => exact absurd hp (by simp)
    | cons i r =>
      obtain ⟨hji, hqr⟩ := (List.cons_prefix_cons).mp hp
      subst hji
      rw [TreeNode.nodeAt_cons] at ha
      cases hc : t.children[j]? with
      | none => rw [hc] at ha; cases ha
      | some c =>
        rw [hc] at ha
        obtain ⟨a', ha', hlab, hlen⟩ := ih r c hqr (fun he => hne (by rw [he])) ha
        refine ⟨a', ?_, hlab, hlen⟩
        rw [TreeNode.nodeAt_cons, TreeNode.children_modifyAt_cons, List.getElem?_modify, hc]
        simpa using ha'

/-! ## Mutations and the leaf invariant -/

theorem LeafInv_nodeAt {t m : TreeNode} (r : NodeRef) (ht : LeafInv t)
    (h : t.nodeAt r = some m) : LeafInv m := by
  induction r generalizing t with
  | nil =>
    have : t = m := by simpa [TreeNode.nodeAt] using h
    rw [← this]; exact ht
  | cons i r ih =>
    rw [TreeNode.nodeAt_cons] at h
    cases hc : t.children[i]? with
    | none => rw [hc] at h; cases h
    | some c =>
      rw [hc] at h
      exact ih (((LeafInv_iff t).mp ht).2 c (List.mem_iff_getElem?.mpr ⟨i, hc⟩)) h

theorem LeafInv_modifyAt (f : TreeNode → TreeNode) (r : NodeRef) {t m : TreeNode}
    (ht : LeafInv t) (h : t.nodeAt r = some m) (hf : LeafInv (f m)) :
    LeafInv (TreeNode.modifyAt f r t) := by
  induction r generalizing t with
  | nil =>
    have : t = m := by simpa [TreeNode.nodeAt] using h
    rw [this]; exact hf
  | cons i r ih =>
    rw [TreeNode.nodeAt_cons] at h
    cases hc : t.children[i]? with
    | none => rw [hc] at h; cases h
    | some c =>
      rw [hc] at h
      obtain ⟨hleaf, hkids⟩ := (LeafInv_iff t).mp ht
      rw [LeafInv_iff]
      refine ⟨fun hd => ?_, fun d hd => ?_⟩
      · have hlab := TreeNode.sameLabel_modifyAt_cons f i r t
        rw [TreeNode.children_modifyAt_cons, hleaf (hlab.2.2.2.2.1.symm.trans hd)]
        cases i <;> rfl
      · rw [TreeNode.children_modifyAt_cons] at hd
        obtain ⟨k, hk⟩ := List.mem_iff_getElem?.mp hd
        rw [List.getElem?_modify] at hk
        cases hck : t.children[k]? with
        | none => rw [hck] at hk; cases hk
        | some a =>
          rw [hck] at hk
          by_cases hik : i = k
          · subst hik
            have hac : a = c := by rw [hc] at hck; cases hck; rfl
            subst hac
            have hda : d = TreeNode.modifyAt f r a := by simpa using hk.symm
            rw [hda]
            exact ih (hkids a (List.mem_iff_getElem?.mpr ⟨i, hc⟩)) h
          · have hda : d = a := by simpa [hik] using hk.symm
            rw [hda]
            exact hkids a (List.mem_iff_getElem?.mpr ⟨k, hck⟩)

theorem exampleTree_leafInv : LeafInv exampleTree := by
  rw [LeafInv_iff]
  refine ⟨fun h => absurd h (by decide), fun c hc => ?_⟩
  have hc' : c ∈ [exampleA, exampleBFull] := hc
  simp only [List.mem_cons, List.mem_singleton, List.not_mem_nil, or_false] at hc'
  rcases hc' with rfl | rfl
  · exact LeafInv_of_no_children rfl
  · rw [LeafInv_iff]
    refine ⟨fun h => absurd h (by decide), fun d hd => ?_⟩
    have hd' : d ∈ [exampleC] := hd
    rw [List.mem_singleton.mp hd']
    exact LeafInv_of_no_children rfl

/-- C9, as stated, fails on the code: `AddChild` on the leaf `a`, and `Insert`
under the hash of the leaf `a` in the resolved example tree, both leave a node
that is not a directory with one child. -/
theorem leaf_invariant_broken_by_append :
    LeafInv exampleA ∧ LeafInv exampleC ∧ LeafInv exampleTree ∧
    ¬ LeafInv (exampleA.AddChild exampleC).1 ∧
    ¬ LeafInv (exampleTree.Insert "Qa" exampleC).1 := by
  refine ⟨LeafInv_of_no_children rfl, LeafInv_of_no_children rfl, exampleTree_leafInv, ?_, ?_⟩
  · intro h
    have hnil := h _ (TreeNode.mem_preorder_self _) rfl
    exact absurd (congrArg List.length hnil) (by decide)
  · intro h
    have ha : LeafInv (exampleA.appendChild exampleC) :=
      ((LeafInv_iff _).mp h).2 _ (List.Mem.head _)
    have hnil := ha _ (TreeNode.mem_preorder_self _) rfl
    exact absurd (congrArg List.length hnil) (by decide)

/-- C9, amended. From a tree and a node `c` that both satisfy the leaf
invariant: `AddChild(c)` keeps it when the receiver is a directory or its child
container is nil; `Insert(h, c)` keeps it when the first match of `h`, if any,
is a directory; `Del(h)` always keeps it. -/
theorem leaf_invariant_under_mutation (t c : TreeNode) (h : String) (ht : LeafInv t)
    (hc : LeafInv c) :
    ((t.Dir = true ∨ t.Child = none) → LeafInv (t.AddChild c).1) ∧
    ((∀ m, t.Find h = some m → m.Dir = true) → LeafInv (t.Insert h c).1) ∧
    LeafInv (t.Del h).1 := by
  refine ⟨?_, ?_, ht⟩
  · intro hcase
    unfold TreeNode.AddChild
    split
    · rename_i hsome
      rcases hcase with hd | hnil
      · exact LeafInv_appendChild hd ht hc
      · rw [hnil] at hsome; cases hsome
    · exact ht
  · intro hdir
    unfold TreeNode.Insert
    cases hr : t.FindRef h with
    | none => exact ht
    | some r =>
      obtain ⟨m, hm, -, hfind, -⟩ := TreeNode.FindRef_some h t r hr
      exact LeafInv_modifyAt _ r ht hm
        (LeafInv_appendChild (hdir m hfind) (LeafInv_nodeAt r ht hm) hc)

/-- The amended C9 on the worked example: `c` is put below the root, and below
the directory `b`. -/
theorem leaf_invariant_under_mutation_witness :
    ((exampleRoot.Dir = true ∨ exampleRoot.Child = none) →
      LeafInv (exampleRoot.AddChild exampleC).1) ∧
    ((∀ m, exampleRoot.Find "Qb" = some m → m.Dir = true) →
      LeafInv (exampleRoot.Insert "Qb" exampleC).1) ∧
    LeafInv (exampleRoot.Del "Qb").1 :=
  leaf_invariant_under_mutation exampleRoot exampleC "Qb" exampleRoot_leafInv
    (LeafInv_of_no_children rfl)

/-! ## Insertion -/

/-- C10. `Insert` reports no error. When no node carries the hash the tree is
unchanged. When some node does, the node `Find` returns sits at a position `r`
that no matching position precedes in pre-order (positions compared
lexicographically, a node before its children); afterwards that node has `x`
appended as its last child, every position that is neither above nor below `r`
holds what it held, and every node above `r` keeps its fields and its number
of children. -/
theorem insert_appends_under_first_match (t : TreeNode) (h : String) (x : TreeNode) :
    (t.Insert h x).2 = none ∧
    ((∀ m ∈ t.preorder, m.Hash ≠ h) → (t.Insert h x).1 = t) ∧
    ((∃ m ∈ t.preorder, m.Hash = h) → ∃ r m,
      t.Find h = some m ∧ t.nodeAt r = some m ∧
      (∀ q m', q < r → t.nodeAt q = some m' → m'.Hash ≠ h) ∧
      (t.Insert h x).1.nodeAt r = some { m with Child := some (m.children ++ [x]) } ∧
      (∀ q, ¬ q <+: r → ¬ r <+: q → (t.Insert h x).1.nodeAt q = t.nodeAt q) ∧
      (∀ q a, q <+: r → q ≠ r → t.nodeAt q = some a →
        ∃ a', (t.Insert h x).1.nodeAt q = some a' ∧ a'.sameLabel a ∧
          a'.children.length = a.children.length)) := by
  refine ⟨?_, ?_, ?_⟩
  · unfold TreeNode.Insert
    cases t.FindRef h <;> rfl
  · intro hno
    unfold TreeNode.Insert
    cases hr : t.FindRef h with
    | none => rfl
    | some r =>
      obtain ⟨m, -, hmh, hfind, -⟩ := TreeNode.FindRef_some h t r hr
      rw [TreeNode.Find_eq_find_preorder] at hfind
      exact absurd hmh (hno m (List.mem_of_find?_eq_some hfind))
  · rintro ⟨m₀, hm₀, hh₀⟩
    cases hr : t.FindRef h with
    | none =>
      have hfind := (TreeNode.FindRef_none h t hr).1
      rw [TreeNode.Find_eq_find_preorder, List.find?_eq_none] at hfind
      exact absurd hh₀ (by simpa using hfind m₀ hm₀)
    | some r =>
      obtain ⟨m, hm, -, hfind, hfirst⟩ := TreeNode.FindRef_some h t r hr
      have hins : (t.Insert h x).1 = TreeNode.modifyAt (fun p => p.appendChild x) r t := by
        unfold TreeNode.Insert; rw [hr]
      rw [hins]
      exact ⟨r, m, hfind, hm, hfirst, TreeNode.nodeAt_modifyAt _ r t m hm,
        fun q h1 h2 => TreeNode.nodeAt_modifyAt_off _ r q t h1 h2,
        fun q a hp hne ha => TreeNode.nodeAt_modifyAt_above _ r q t a hp hne ha⟩

/-! ## Appending a child -/

/-- C11. `AddChild` reports no error. When the child container of the receiver
is not nil the children afterwards are the old children followed by `c`; when it
is nil the receiver is unchanged. A node built by `NewNode` starts with an
empty container that is not nil, so `AddChild` on it appends. -/
theorem addChild_appends_unless_nil (n c : TreeNode) :
    (n.AddChild c).2 = none ∧
    (∀ cs, n.Child = some cs → (n.AddChild c).1 = { n with Child := some (cs ++ [c]) }) ∧
    (n.Child = none → (n.AddChild c).1 = n) ∧
    (∀ hash path name size dir,
      (NewNode hash path name size dir).Child = some [] ∧
      ((NewNode hash path name size dir).AddChild c).1 =
        { NewNode hash path name size dir with Child := some [c] }) := by
  refine ⟨?_, ?_, ?_, ?_⟩
  · unfold TreeNode.AddChild
    split <;> rfl
  · intro cs hcs
    simp [TreeNode.AddChild, TreeNode.appendChild, TreeNode.children, hcs]
  · intro hnil
    simp [TreeNode.AddChild, hnil]
  · intro hash path name size dir
    exact ⟨rfl, rfl⟩

/-! ## Deletion -/

/-- C15 on the code: `Del "Qc"` on the resolved example tree reports no error
and leaves the tree as it was, the node `c` still below `b` and still found. -/
theorem del_leaves_the_node_attached :
    (exampleTree.Del "Qc").2 = none ∧ (exampleTree.Del "Qc").1 = exampleTree ∧
    (exampleTree.Del "Qc").1.nodeAt [1, 0] = some exampleC ∧
    (exampleTree.Del "Qc").1.Find "Qc" = some exampleC :=
  ⟨rfl, rfl, rfl, rfl⟩

/-! ## The download manager -/

/-- C16. `downloadFileByAria2` returns no error exactly when the response of
the download manager is present, carries no error field and has a job handle
that is not empty; when the response carries an error field, the error
returned has the message of that field. -/
theorem downloadFileByAria2_succeeds_iff (env : Aria2Env) (conf : Aria2Conf)
    (downUrl outPath : String) :
    (downloadFileByAria2 env conf downUrl outPath = none ↔
      ∃ resp, (env.GetAria2Client conf.Host conf.Secret conf.Port).DownloadFile downUrl
          (env.filepath_Dir outPath) (env.filepath_Base outPath) = some resp ∧
        resp.Error = none ∧ resp.Gid ≠ "") ∧
    (∀ resp err, (env.GetAria2Client conf.Host conf.Secret conf.Port).DownloadFile downUrl
          (env.filepath_Dir outPath) (env.filepath_Base outPath) = some resp →
        resp.Error = some err →
        downloadFileByAria2 env conf downUrl outPath = some err.Message) ∧
    downloadFileByAria2 exampleAria2Env ⟨"localhost", 6800, ""⟩ "http://x/f" "/tmp/f" = none ∧
    downloadFileByAria2 failingAria2Env ⟨"localhost", 6800, ""⟩ "http://x/f" "/tmp/f"
      = some "boom" := by
  refine ⟨?_, ?_, rfl, rfl⟩
  · cases hresp : (env.GetAria2Client conf.Host conf.Secret conf.Port).DownloadFile downUrl
        (env.filepath_Dir outPath) (env.filepath_Base outPath) with
    | none => simp [downloadFileByAria2, hresp]
    | some resp =>
      cases herr : resp.Error with
      | some err => simp [downloadFileByAria2, hresp, herr]
      | none => simp [downloadFileByAria2, hresp, herr]
  · intro resp err hresp herr
    simp [downloadFileByAria2, hresp, herr]

/-! ## Joining paths -/

theorem strings_TrimRight_data (s cutset : String) :
    (strings_TrimRight s cutset).data =
      List.rdropWhile (fun c => cutset.data.contains c) s.data := rfl

theorem slash_contains (c : Char) : ("/".data.contains c) = (c == '/') := by
  show List.elem c ['/'] = (c == '/')
  cases h : c == '/' <;> simp [List.elem, h]

/-- Trimming on the right leaves no trailing slash. -/
theorem strings_TrimRight_last (s : String) :
    (strings_TrimRight s "/").data.getLast? ≠ some '/' := by
  rw [strings_TrimRight_data, List.rdropWhile, List.getLast?_reverse]
  intro h
  have hnot := List.head?_dropWhile_not (fun c => "/".data.contains c) s.data.reverse
  rw [h] at hnot
  exact absurd hnot (by decide)

/-- Trimming on the right only removes slashes. -/
theorem strings_TrimRight_removes_slashes (s : String) :
    ∃ k, s.data = (strings_TrimRight s "/").data ++ List.replicate k '/' := by
  rw [strings_TrimRight_data]
  generalize s.data = l
  induction l using List.reverseRecOn with
  | nil => exact ⟨0, rfl⟩
  | append_singleton l a ih =>
    rw [List.rdropWhile_concat]
    split
    · rename_i ha
      have ha' : a = '/' := by rw [slash_contains] at ha; simpa using ha
      obtain ⟨k, hk⟩ := ih
      refine ⟨k + 1, ?_⟩
      rw [List.replicate_succ', ← List.append_assoc, ← hk, ha']
    · exact ⟨0, by simp⟩

/-- A string that ends in a plain part is not changed by trimming on the right. -/
theorem strings_TrimRight_append_plain (s p : String) (hne : p ≠ "")
    (hplain : '/' ∉ p.data) : strings_TrimRight (s ++ p) "/" = s ++ p := by
  apply String.ext
  rw [strings_TrimRight_data, List.rdropWhile_eq_self_iff]
  intro hl
  have hp : p.data ≠ [] := fun h => hne (String.ext h)
  have hlast : (s ++ p).data.getLast hl = p.data.getLast hp := by
    simp only [String.data_append]
    exact List.getLast_append_of_ne_nil hp
  rw [hlast, slash_contains]
  intro hc
  have : p.data.getLast hp = '/' := by simpa using hc
  exact hplain (this ▸ List.getLast_mem hp)

theorem strings_TrimLeft_plain (p : String) (hplain : '/' ∉ p.data) :
    strings_TrimLeft p "/" = p := by
  apply String.ext
  show List.dropWhile (fun c => "/".data.contains c) p.data = p.data
  cases hp : p.data with
  | nil => rfl
  | cons a l =>
    apply List.dropWhile_cons_of_neg
    rw [slash_contains]
    intro hc
    have : a = '/' := by simpa using hc
    exact hplain (by rw [hp, this]; exact List.mem_cons_self _ _)

theorem pathJoin_plain_aux (parts : List String)
    (hparts : ∀ p ∈ parts, p ≠ "" ∧ '/' ∉ p.data) (url : String) :
    strings_TrimRight
      (parts.foldl
        (fun url part => strings_TrimRight url "/" ++ "/" ++ strings_TrimLeft part "/") url)
      "/" =
    parts.foldl (fun acc p => acc ++ "/" ++ p) (strings_TrimRight url "/") := by
  induction parts generalizing url with
  | nil => rfl
  | cons p ps ih =>
    obtain ⟨hne, hplain⟩ := hparts p (List.mem_cons_self _ _)
    rw [List.foldl_cons, List.foldl_cons, ih (fun q hq => hparts q (List.mem_cons_of_mem _ hq)),
      strings_TrimLeft_plain p hplain, strings_TrimRight_append_plain _ p hne hplain]

/-- C19. For parts that are not empty and hold no slash, `pathJoin root parts`
is `root` without its trailing slashes followed by a slash and a part, once per
part and in order; so `pathJoin "/ipfs/" [cid]` is `"/ipfs/" ++ cid`. -/
theorem pathJoin_of_plain_parts (root : String) (parts : List String)
    (_hne : parts ≠ []) (hparts : ∀ p ∈ parts, p ≠ "" ∧ '/' ∉ p.data) :
    pathJoin root parts =
      parts.foldl (fun acc p => acc ++ "/" ++ p) (strings_TrimRight root "/") ∧
    (∀ cid : String, cid ≠ "" → '/' ∉ cid.data →
      pathJoin "/ipfs/" [cid] = "/ipfs/" ++ cid) := by
  refine ⟨pathJoin_plain_aux parts hparts root, ?_⟩
  intro cid hne hplain
  have hmain := pathJoin_plain_aux [cid]
    (fun p hp => by rw [List.mem_singleton.mp hp]; exact ⟨hne, hplain⟩) "/ipfs/"
  unfold pathJoin
  rw [hmain]
  apply String.ext
  simp only [List.foldl_cons, List.foldl_nil, String.data_append]
  rfl

/-- The theorem C19 at `pathJoin "/root//" ["a", "b"]`, which is `/root/a/b`. -/
theorem pathJoin_of_plain_parts_witness : pathJoin "/root//" ["a", "b"] = "/root/a/b" :=
  (pathJoin_of_plain_parts "/root//" ["a", "b"] (by decide) (by decide)).1.trans (by decide)

/-- C20. Whatever the root and the parts, the result of `pathJoin` does not
end with a slash. With no parts it is the root without its trailing slashes:
the root is that result followed by slashes only; `pathJoin "/" []` is the empty
string. -/
theorem pathJoin_never_ends_with_slash (root : String) (parts : List String) :
    (pathJoin root parts).data.getLast? ≠ some '/' ∧
    pathJoin root [] = strings_TrimRight root "/" ∧
    (∃ k, root.data = (pathJoin root []).data ++ List.replicate k '/') ∧
    pathJoin "/" [] = "" ∧ pathJoin "a/" ["/", "", "//b//"] = "a/b" := by
  refine ⟨strings_TrimRight_last _, rfl, strings_TrimRight_removes_slashes root, ?_, ?_⟩
  · decide
  · decide

/-! ## The remote calls of `BuildChildTree` -/

theorem NewNodeByDataCidTraced_fst (sh : Shell) (dataCid nodePath name : String) :
    (NewNodeByDataCidTraced sh dataCid nodePath name).1 =
      NewNodeByDataCid sh dataCid nodePath name := by
  cases hst : sh.FilesStat (pathJoin "/ipfs/" [dataCid]) with
  | none => simp [NewNodeByDataCidTraced, NewNodeByDataCid, hst]
  | some stat =>
    by_cases hd : stat.Type_ = "directory"
    · simp [NewNodeByDataCidTraced, NewNodeByDataCid, hst, hd]
    · by_cases hf : stat.Type_ = "file"
      · simp [NewNodeByDataCidTraced, NewNodeByDataCid, hst, hf]
      · simp [NewNodeByDataCidTraced, NewNodeByDataCid, hst, hd, hf]

theorem TreeNode.attachLinksTraced_fst (sh : Shell) (child : TreeNode) (links : List DagLink) :
    (child.attachLinksTraced sh links).1 = child.attachLinks sh links := by
  unfold TreeNode.attachLinksTraced TreeNode.attachLinks
  generalize ([] : List ShellCall) = calls
  induction links generalizing child calls with
  | nil => rfl
  | cons l links ih =>
    rw [List.foldl_cons, List.foldl_cons]
    have hfst := NewNodeByDataCidTraced_fst sh l.Target child.Path l.Name
    cases htr : NewNodeByDataCidTraced sh l.Target child.Path l.Name with
    | mk res calls' =>
      rw [htr] at hfst
      simp only at hfst
      rw [← hfst]
      cases res with
      | none => exact ih child _
      | some sub => exact ih _ _

theorem TreeNode.forEachChildTraced_fst
    {f : TreeNode → Option (TreeNode × List ShellCall)} {g : TreeNode → Option TreeNode}
    (hfg : ∀ c, (f c).map Prod.fst = g c) (cs : List TreeNode) :
    (TreeNode.forEachChildTraced f cs).map Prod.fst = TreeNode.forEachChild g cs := by
  induction cs with
  | nil => rfl
  | cons c cs ih =>
    rw [TreeNode.forEachChildTraced, TreeNode.forEachChild_cons, ← hfg c, ← ih]
    cases f c with
    | none => rfl
    | some r =>
      cases TreeNode.forEachChildTraced f cs with
      | none => rfl
      | some r' => rfl

/-- Forgetting the calls of the traced run gives the run itself. -/
theorem TreeNode.BuildChildTreeTraced_erase (fuel : Nat) (sh : Shell) (n : TreeNode) :
    (TreeNode.BuildChildTreeTraced fuel sh n).map (fun r => (r.1, r.2.1)) =
      TreeNode.BuildChildTree fuel sh n := by
  induction fuel generalizing n with
  | zero => rfl
  | succ fuel ih =>
    rw [TreeNode.BuildChildTreeTraced, TreeNode.BuildChildTree_succ]
    split
    · rfl
    · have hstep : ∀ c,
          (TreeNode.childStepTraced (TreeNode.BuildChildTreeTraced fuel sh) sh c).map Prod.fst =
            TreeNode.childStep (TreeNode.BuildChildTree fuel sh) sh c := by
        intro c
        unfold TreeNode.childStepTraced TreeNode.childStep
        split
        · rfl
        · cases sh.DagGet c.Hash with
          | none => rfl
          | some resp =>
            simp only
            rw [TreeNode.attachLinksTraced_fst, ← ih]
            cases TreeNode.BuildChildTreeTraced fuel sh (c.attachLinks sh resp.Links) with
            | none => rfl
            | some r => rfl
      rw [← TreeNode.forEachChildTraced_fst hstep]
      cases TreeNode.forEachChildTraced
          (TreeNode.childStepTraced (TreeNode.BuildChildTreeTraced fuel sh) sh) n.children with
      | none => rfl
      | some r => rfl

/-- C12. On a node that is not a directory, or has no children, `BuildChildTree`
returns at once: the tree is unchanged, no stat and no link-fetch call is
issued, and no error is reported. -/
theorem buildChildTree_is_noop_on_leaf_or_empty (sh : Shell) (n : TreeNode) (fuel : Nat)
    (h : n.Dir = false ∨ n.children = []) :
    TreeNode.BuildChildTreeTraced (fuel + 1) sh n = some (n, none, []) ∧
    TreeNode.BuildChildTree (fuel + 1) sh n = some (n, none) := by
  have hcond : (!n.Dir || decide (n.children.length = 0)) = true := by
    rcases h with hd | hnil
    · simp [hd]
    · simp [hnil]
  constructor
  · rw [TreeNode.BuildChildTreeTraced, if_pos hcond]
  · rw [TreeNode.BuildChildTree_succ, if_pos hcond]

/-- The theorem C12 on the leaf `a` of the worked example. -/
theorem buildChildTree_is_noop_on_leaf_or_empty_witness :
    TreeNode.BuildChildTreeTraced 1 exampleShell exampleA = some (exampleA, none, []) ∧
    TreeNode.BuildChildTree 1 exampleShell exampleA = some (exampleA, none) :=
  buildChildTree_is_noop_on_leaf_or_empty exampleShell exampleA 0 (Or.inl rfl)

/-! ## The tree only grows -/

theorem Grows_refl (t : TreeNode) : Grows t t :=
  fun _ a ha => ⟨a, ha, TreeNode.sameLabel_refl a, le_refl _⟩

theorem TreeNode.sameLabel_trans {a b c : TreeNode} (h1 : a.sameLabel b) (h2 : b.sameLabel c) :
    a.sameLabel c :=
  ⟨h1.1.trans h2.1, h1.2.1.trans h2.2.1, h1.2.2.1.trans h2.2.2.1,
    h1.2.2.2.1.trans h2.2.2.2.1, h1.2.2.2.2.1.trans h2.2.2.2.2.1,
    h1.2.2.2.2.2.trans h2.2.2.2.2.2⟩

theorem Grows_trans {a b c : TreeNode} (h1 : Grows a b) (h2 : Grows b c) : Grows a c := by
  intro q x hx
  obtain ⟨y, hy, hlab, hlen⟩ := h1 q x hx
  obtain ⟨z, hz, hlab', hlen'⟩ := h2 q y hy
  exact ⟨z, hz, TreeNode.sameLabel_trans hlab' hlab, le_trans hlen hlen'⟩

theorem List.Forall₂_getElem? {α β : Type} {R : α → β → Prop} {l : List α} {l' : List β}
    (h : List.Forall₂ R l l') {i : Nat} {a : α} (ha : l[i]? = some a) :
    ∃ b, l'[i]? = some b ∧ R a b := by
  induction h generalizing i with
  | nil => cases ha
  | @cons x b _ _ hab _ ih =>
    cases i with
    | zero =>
      have hxa : x = a := by simpa using ha
      subst hxa
      exact ⟨b, by simp, hab⟩
    | succ i =>
      obtain ⟨b, hb, hr⟩ := ih (by simpa using ha)
      exact ⟨b, by simpa using hb, hr⟩

/-- A node with the same fields whose children start with grown versions of
the old children extends the old node. -/
theorem Grows_of_children {old new : TreeNode} (hlab : new.sameLabel old)
    (kids extra : List TreeNode) (hkids : new.children = kids ++ extra)
    (hgrow : List.Forall₂ Grows old.children kids) : Grows old new := by
  intro q a hq
  cases q with
  | nil =>
    have : old = a := by simpa [TreeNode.nodeAt] using hq
    subst this
    refine ⟨new, rfl, hlab, ?_⟩
    rw [hkids, List.length_append, ← hgrow.length_eq]
    exact Nat.le_add_right _ _
  | cons i q =>
    rw [TreeNode.nodeAt_cons] at hq ⊢
    cases hc : old.children[i]? with
    | none => rw [hc] at hq; cases hq
    | some c =>
      rw [hc] at hq
      obtain ⟨c', hc', hcc⟩ := List.Forall₂_getElem? hgrow hc
      have hlt : i < kids.length := (List.getElem?_eq_some_iff.mp hc').1
      rw [hkids, List.getElem?_append_left hlt, hc']
      exact hcc q a hq

theorem List.Forall₂_refl_of {α : Type} {R : α → α → Prop} (hR : ∀ a, R a a) (l : List α) :
    List.Forall₂ R l l := by
  induction l with
  | nil => exact List.Forall₂.nil
  | cons a l ih => exact List.Forall₂.cons (hR a) ih

theorem List.Forall₂_modify {α : Type} {R : α → α → Prop} (hR : ∀ a, R a a) (g : α → α)
    (hg : ∀ a, R a (g a)) (l : List α) (i : Nat) : List.Forall₂ R l (l.modify g i) := by
  induction l generalizing i with
  | nil => cases i <;> exact List.Forall₂.nil
  | cons a l ih =>
    cases i with
    | zero => exact List.Forall₂.cons (hg a) (List.Forall₂_refl_of hR l)
    | succ i => exact List.Forall₂.cons (hR a) (ih i)

theorem Grows_appendChild (t c : TreeNode) : Grows t (t.appendChild c) :=
  Grows_of_children ⟨rfl, rfl, rfl, rfl, rfl, rfl⟩ t.children [c]
    (by simp [TreeNode.appendChild, TreeNode.children])
    (List.Forall₂_refl_of Grows_refl _)

theorem Grows_AddChild (t c : TreeNode) : Grows t (t.AddChild c).1 := by
  unfold TreeNode.AddChild
  split
  · exact Grows_appendChild t c
  · exact Grows_refl t

theorem Grows_modifyAt (f : TreeNode → TreeNode) (hf : ∀ m, Grows m (f m)) (r : NodeRef)
    (t : TreeNode) : Grows t (TreeNode.modifyAt f r t) := by
  induction r generalizing t with
  | nil => exact hf t
  | cons i r ih =>
    exact Grows_of_children (TreeNode.sameLabel_modifyAt_cons f i r t)
      (t.children.modify (TreeNode.modifyAt f r) i) []
      (by rw [TreeNode.children_modifyAt_cons, List.append_nil])
      (List.Forall₂_modify Grows_refl _ ih _ i)

theorem Grows_Insert (t : TreeNode) (h : String) (c : TreeNode) : Grows t (t.Insert h c).1 := by
  unfold TreeNode.Insert
  cases t.FindRef h with
  | none => exact Grows_refl t
  | some r => exact Grows_modifyAt _ (fun m => Grows_appendChild m c) r t

theorem Grows_attachLinks (sh : Shell) (c : TreeNode) (links : List DagLink) :
    Grows c (c.attachLinks sh links) := by
  rw [TreeNode.attachLinks_eq]
  split
  · exact Grows_of_children ⟨rfl, rfl, rfl, rfl, rfl, rfl⟩ c.children
      (links.filterMap (fun l => NewNodeByDataCid sh l.Target c.Path l.Name))
      (by simp [TreeNode.children]) (List.Forall₂_refl_of Grows_refl _)
  · exact Grows_refl c

theorem Grows_BuildChildTree {sh : Shell} {fuel : Nat} {n t : TreeNode} {e : GoError}
    (hrun : TreeNode.BuildChildTree fuel sh n = some (t, e)) : Grows n t := by
  induction fuel generalizing n t e with
  | zero => simp [TreeNode.BuildChildTree] at hrun
  | succ fuel ih =>
    by_cases hd : n.Dir = true
    · obtain ⟨-, hloop, h1, h2, h3, h4, h5, h6⟩ := TreeNode.BuildChildTree_dir hd hrun
      refine Grows_of_children ⟨h1, h2, h3, h4, h5, h6⟩ t.children [] (by simp) ?_
      rw [TreeNode.forEachChild_some_iff] at hloop
      refine hloop.imp ?_
      intro c c' hstep
      unfold TreeNode.childStep at hstep
      split at hstep
      · cases hstep; exact Grows_refl c
      · cases hresp : sh.DagGet c.Hash with
        | none => rw [hresp] at hstep; cases hstep; exact Grows_refl c
        | some resp =>
          rw [hresp] at hstep
          simp only at hstep
          cases hrec : TreeNode.BuildChildTree fuel sh (c.attachLinks sh resp.Links) with
          | none => rw [hrec] at hstep; cases hstep
          | some r =>
            obtain ⟨c'', e'⟩ := r
            rw [hrec] at hstep
            have hcc : c'' = c' := by simpa using hstep
            subst hcc
            exact Grows_trans (Grows_attachLinks sh c resp.Links) (ih hrec)
    · rw [TreeNode.BuildChildTree_succ] at hrun
      have hnd : n.Dir = false := by simpa using hd
      simp only [hnd, Bool.not_false, Bool.true_or, if_true, Option.some.injEq,
        Prod.mk.injEq] at hrun
      rw [← hrun.1]
      exact Grows_refl n

/-- A hash found in a tree is found in every tree that extends it. -/
theorem Grows_Find {old new : TreeNode} (hg : Grows old new) (h : String)
    (hf : (old.Find h).isSome = true) : (new.Find h).isSome = true := by
  cases hr : old.FindRef h with
  | none =>
    rw [(TreeNode.FindRef_none h old hr).1] at hf
    cases hf
  | some r =>
    obtain ⟨m, hm, hmh, -, -⟩ := TreeNode.FindRef_some h old r hr
    obtain ⟨m', hm', hlab, -⟩ := hg r m hm
    cases hr' : new.FindRef h with
    | none =>
      exact absurd (hlab.2.2.1.trans hmh) ((TreeNode.FindRef_none h new hr').2 r m' hm')
    | some r' =>
      obtain ⟨x, -, -, hx, -⟩ := TreeNode.FindRef_some h new r' hr'
      rw [hx]; rfl

/-- C13. The tree is append-only. After `AddChild`, `Insert`, `Del` and every
returning `BuildChildTree`, each node that was in the tree is still at its
position, below the same parent, with the same hash, path, name, size and
directory flag, and its old children are the first of its children. So a hash
that `Find` found before any of these operations is found afterwards. -/
theorem tree_is_append_only (t c : TreeNode) (h : String) (sh : Shell) :
    Grows t (t.AddChild c).1 ∧ Grows t (t.Insert h c).1 ∧ Grows t (t.Del h).1 ∧
    (∀ fuel t' e, TreeNode.BuildChildTree fuel sh t = some (t', e) → Grows t t') ∧
    (∀ rank, Acyclic sh rank → ∃ t', Grows t t' ∧
      ∀ fuel, TreeNode.depthBound rank t < fuel →
        TreeNode.BuildChildTree fuel sh t = some (t', none)) ∧
    (∀ h', (t.Find h').isSome = true →
      ((t.AddChild c).1.Find h').isSome = true ∧ ((t.Insert h c).1.Find h').isSome = true ∧
      ((t.Del h).1.Find h').isSome = true ∧
      ∀ fuel t' e, TreeNode.BuildChildTree fuel sh t = some (t', e) →
        (t'.Find h').isSome = true) :=
  ⟨Grows_AddChild t c, Grows_Insert t h c, Grows_refl t,
    fun _ _ _ hrun => Grows_BuildChildTree hrun,
    fun rank hacy =>
      (TreeNode.BuildChildTree_returns hacy (TreeNode.depthBound rank t + 1) t
        (Nat.lt_succ_self _)).elim
        (fun t' ht' => ⟨t', Grows_BuildChildTree ht',
          fun _ hfuel => TreeNode.BuildChildTree_mono_le hfuel ht'⟩),
    fun h' hf => ⟨Grows_Find (Grows_AddChild t c) h' hf, Grows_Find (Grows_Insert t h c) h' hf,
      hf, fun _ _ _ hrun => Grows_Find (Grows_BuildChildTree hrun) h' hf⟩⟩

/-! ## Determinism -/

/-- C14. Two resolutions of the same identifier against the same store, each
from a freshly built root given the same initial children, and each returning
within its own budget, leave the same tree (same paths, names, hashes, sizes and
directory flags in the same child order) and the same error. -/
theorem resolution_is_deterministic (sh : Shell) (dataCid nodePath name : String)
    (kids : List TreeNode) (root1 root2 t1 t2 : TreeNode) (e1 e2 : GoError)
    (fuel1 fuel2 : Nat)
    (h1 : NewNodeByDataCid sh dataCid nodePath name = some root1)
    (h2 : NewNodeByDataCid sh dataCid nodePath name = some root2)
    (r1 : TreeNode.BuildChildTree fuel1 sh { root1 with Child := some kids } = some (t1, e1))
    (r2 : TreeNode.BuildChildTree fuel2 sh { root2 with Child := some kids } = some (t2, e2)) :
    t1 = t2 ∧ e1 = e2 := by
  have hroot : root1 = root2 := by
    rw [h1] at h2
    exact Option.some.inj h2
  subst hroot
  rcases Nat.le_total fuel1 fuel2 with hle | hle
  · have := TreeNode.BuildChildTree_mono_le hle r1
    rw [r2] at this
    cases this
    exact ⟨rfl, rfl⟩
  · have := TreeNode.BuildChildTree_mono_le hle r2
    rw [r1] at this
    cases this
    exact ⟨rfl, rfl⟩

/-- The theorem C14 on the worked example, resolved within budgets 3 and 5. -/
theorem resolution_is_deterministic_witness :
    NewNodeByDataCid exampleShell "Qroot" "/" "" = some (NewNode "Qroot" "/Qroot" "" 30 true) ∧
    TreeNode.BuildChildTree 3 exampleShell exampleRoot = some (exampleTree, none) ∧
    TreeNode.BuildChildTree 5 exampleShell exampleRoot = some (exampleTree, none) ∧
    exampleTree = exampleTree ∧ (none : GoError) = none :=
  ⟨rfl, rfl, rfl,
    resolution_is_deterministic exampleShell "Qroot" "/" "" [exampleA, exampleB]
      (NewNode "Qroot" "/Qroot" "" 30 true) (NewNode "Qroot" "/Qroot" "" 30 true)
      exampleTree exampleTree none none 3 5 rfl rfl rfl rfl⟩

/-! ## What one call attaches -/

/-- A returning run keeps the fields of the receiver, the number of its
children, and a child container that is not nil. -/
theorem TreeNode.BuildChildTree_shape {sh : Shell} {fuel : Nat} {m t : TreeNode} {e : GoError}
    (hrun : TreeNode.BuildChildTree fuel sh m = some (t, e)) :
    t.sameLabel m ∧ t.children.length = m.children.length ∧
    (m.Child.isSome = true → t.Child.isSome = true) := by
  cases fuel with
  | zero => simp [TreeNode.BuildChildTree] at hrun
  | succ fuel =>
    rw [TreeNode.BuildChildTree_succ] at hrun
    split at hrun
    · cases hrun
      exact ⟨TreeNode.sameLabel_refl m, rfl, fun h => h⟩
    · cases hcs : TreeNode.forEachChild
          (TreeNode.childStep (TreeNode.BuildChildTree fuel sh) sh) m.children with
      | none => rw [hcs] at hrun; cases hrun
      | some cs =>
        rw [hcs] at hrun
        cases hrun
        exact ⟨⟨rfl, rfl, rfl, rfl, rfl, rfl⟩, TreeNode.forEachChild_length hcs, fun _ => rfl⟩

/-- The loop body on a directory child whose fetch succeeds and whose child
container is not nil: the run on the child with the resolved links attached
after its children. -/
theorem TreeNode.childStep_expand {sh : Shell} {fuel : Nat} {c c' : TreeNode}
    {resp : DagGetResponse} {cs : List TreeNode} (hd : c.Dir = true)
    (hresp : sh.DagGet c.Hash = some resp) (hcs : c.Child = some cs)
    (hstep : TreeNode.childStep (TreeNode.BuildChildTree fuel sh) sh c = some c') :
    ∃ e', TreeNode.BuildChildTree fuel sh
      { c with Child := some (cs ++
          resp.Links.filterMap (fun l => NewNodeByDataCid sh l.Target c.Path l.Name)) }
      = some (c', e') := by
  unfold TreeNode.childStep at hstep
  rw [if_neg (by simp [hd]), hresp] at hstep
  simp only [TreeNode.attachLinks_eq, hcs, Option.isSome_some, if_true, TreeNode.children,
    Option.getD_some] at hstep
  cases hrec : TreeNode.BuildChildTree fuel sh
      { c with Child := some (cs ++
          resp.Links.filterMap (fun l => NewNodeByDataCid sh l.Target c.Path l.Name)) } with
  | none => rw [hrec] at hstep; cases hstep
  | some r =>
    obtain ⟨c'', e'⟩ := r
    rw [hrec] at hstep
    have hcc : c'' = c' := by simpa using hstep
    subst hcc
    exact ⟨e', rfl⟩

/-- The loop body on a directory child whose child container is nil leaves the
child as it was. -/
theorem TreeNode.childStep_nil {sh : Shell} {fuel : Nat} {c c' : TreeNode}
    (hnil : c.Child = none)
    (hstep : TreeNode.childStep (TreeNode.BuildChildTree fuel sh) sh c = some c') : c' = c := by
  unfold TreeNode.childStep at hstep
  split at hstep
  · cases hstep; rfl
  · cases hresp : sh.DagGet c.Hash with
    | none => rw [hresp] at hstep; cases hstep; rfl
    | some resp =>
      rw [hresp] at hstep
      simp only [TreeNode.attachLinks_eq, hnil, Option.isSome_none, Bool.false_eq_true,
        if_false] at hstep
      cases hrec : TreeNode.BuildChildTree fuel sh c with
      | none => rw [hrec] at hstep; cases hstep
      | some r =>
        obtain ⟨c'', e'⟩ := r
        rw [hrec] at hstep
        have hcc : c'' = c' := by simpa using hstep
        subst hcc
        cases fuel with
        | zero => simp [TreeNode.BuildChildTree] at hrec
        | succ fuel =>
          rw [TreeNode.BuildChildTree_succ] at hrec
          have h0 : c.children.length = 0 := by simp [TreeNode.children, hnil]
          simp only [h0, decide_True, Bool.or_true, if_true, Option.some.injEq,
            Prod.mk.injEq] at hrec
          exact hrec.1.symm

/-- C17, as stated, fails on the code: the directory child `b` of `nilRoot`
has a nil child container; its link-fetch succeeds and its one link resolves,
yet after `BuildChildTree` the children of `b` are not its previous children
followed by the resolved node: `b` still has none. -/
theorem nil_container_child_gets_no_links :
    nilRoot.Dir = true ∧ nilRoot.children = [exampleBNil] ∧ exampleBNil.Dir = true ∧
    exampleShell.DagGet exampleBNil.Hash = some ⟨"", [⟨"Qc", "c", 20⟩]⟩ ∧
    NewNodeByDataCid exampleShell "Qc" exampleBNil.Path "c" = some exampleC ∧
    ∃ t b, TreeNode.BuildChildTree 3 exampleShell nilRoot = some (t, none) ∧
      t.children = [b] ∧ b.children = [] ∧ b.children ≠ exampleBNil.children ++ [exampleC] :=
  ⟨rfl, rfl, rfl, rfl, rfl, nilRoot, exampleBNil, rfl, rfl, rfl, fun h => by cases h⟩

/-- C17, amended. After a returning `BuildChildTree` on a directory `n`, the
tree keeps the fields of `n` and the number of its children, and the child at
every index is: the old child, when that is not a directory, or its link-fetch
fails, or its child container is nil; otherwise the result of the run on the old
child with, after its previous children and in link order, the node
`NewNodeByDataCid` resolves for each link that resolves, a node with the fields
of the old child and that many children. -/
theorem buildChildTree_attaches_links_in_order (fuel : Nat) (sh : Shell) (n t : TreeNode)
    (e : GoError) (hd : n.Dir = true)
    (hrun : TreeNode.BuildChildTree fuel sh n = some (t, e)) :
    t.sameLabel n ∧ t.children.length = n.children.length ∧
    ∀ (i : Nat) (c : TreeNode), n.children[i]? = some c →
      (c.Dir = false → t.children[i]? = some c) ∧
      (sh.DagGet c.Hash = none → t.children[i]? = some c) ∧
      (c.Child = none → t.children[i]? = some c) ∧
      (c.Dir = true → ∀ resp cs, sh.DagGet c.Hash = some resp → c.Child = some cs →
        ∃ (c' : TreeNode) (fuel' : Nat) (e' : GoError), t.children[i]? = some c' ∧
          TreeNode.BuildChildTree fuel' sh
            { c with Child := some (cs ++
                resp.Links.filterMap (fun l => NewNodeByDataCid sh l.Target c.Path l.Name)) }
            = some (c', e') ∧
          c'.sameLabel c ∧
          c'.children.length = cs.length +
            (resp.Links.filterMap
              (fun l => NewNodeByDataCid sh l.Target c.Path l.Name)).length) := by
  cases fuel with
  | zero => simp [TreeNode.BuildChildTree] at hrun
  | succ fuel =>
    obtain ⟨-, hloop, h1, h2, h3, h4, h5, h6⟩ := TreeNode.BuildChildTree_dir hd hrun
    have hget := TreeNode.forEachChild_getElem? hloop
    refine ⟨⟨h1, h2, h3, h4, h5, h6⟩, TreeNode.forEachChild_length hloop, ?_⟩
    intro i c hic
    have hti := hget i
    rw [hic] at hti
    simp only [Option.some_bind] at hti
    have hsome : ∃ c', t.children[i]? = some c' := by
      have hlt : i < t.children.length := by
        rw [TreeNode.forEachChild_length hloop]
        exact (List.getElem?_eq_some_iff.mp hic).1
      exact ⟨_, List.getElem?_eq_getElem hlt⟩
    obtain ⟨c', hc'⟩ := hsome
    rw [hc'] at hti
    refine ⟨fun hleaf => ?_, fun hfail => ?_, fun hnil => ?_, fun hdir resp cs hresp hcs => ?_⟩
    · rw [hc', hti]; exact TreeNode.childStep_leaf _ sh hleaf
    · rw [hc', hti]; exact TreeNode.childStep_fail _ sh hfail
    · rw [hc', TreeNode.childStep_nil hnil hti.symm]
    · obtain ⟨e', hrec⟩ := TreeNode.childStep_expand hdir hresp hcs hti.symm
      obtain ⟨hlab, hlen, -⟩ := TreeNode.BuildChildTree_shape hrec
      refine ⟨c', fuel, e', hc', hrec, hlab, ?_⟩
      rw [hlen]
      simp [TreeNode.children]

/-- The theorem C17 (amended) on the worked example. -/
theorem buildChildTree_attaches_links_in_order_witness :
    exampleTree.sameLabel exampleRoot ∧
    exampleTree.children.length = exampleRoot.children.length ∧
    ∀ (i : Nat) (c : TreeNode), exampleRoot.children[i]? = some c →
      (c.Dir = false → exampleTree.children[i]? = some c) ∧
      (exampleShell.DagGet c.Hash = none → exampleTree.children[i]? = some c) ∧
      (c.Child = none → exampleTree.children[i]? = some c) ∧
      (c.Dir = true → ∀ resp cs, exampleShell.DagGet c.Hash = some resp → c.Child = some cs →
        ∃ (c' : TreeNode) (fuel' : Nat) (e' : GoError), exampleTree.children[i]? = some c' ∧
          TreeNode.BuildChildTree fuel' exampleShell
            { c with Child := some (cs ++
                resp.Links.filterMap
                  (fun l => NewNodeByDataCid exampleShell l.Target c.Path l.Name)) }
            = some (c', e') ∧
          c'.sameLabel c ∧
          c'.children.length = cs.length +
            (resp.Links.filterMap
              (fun l => NewNodeByDataCid exampleShell l.Target c.Path l.Name)).length) :=
  buildChildTree_attaches_links_in_order 3 exampleShell exampleRoot exampleTree none rfl rfl

/-! ## Calling twice -/

/-- One returning call on a directory `n` gives the directory child `c`, whose
fetch succeeds and whose child container is not nil, as many more children as
links resolve; the child keeps its fields and a container that is not nil. -/
theorem TreeNode.BuildChildTree_child_grows {sh : Shell} {fuel : Nat} {n t c : TreeNode}
    {e : GoError} {i : Nat} {resp : DagGetResponse} {cs : List TreeNode}
    (hd : n.Dir = true) (hrun : TreeNode.BuildChildTree fuel sh n = some (t, e))
    (hi : n.children[i]? = some c) (hc : c.Dir = true)
    (hresp : sh.DagGet c.Hash = some resp) (hcs : c.Child = some cs) :
    t.Dir = true ∧ ∃ c', t.children[i]? = some c' ∧ c'.sameLabel c ∧
      c'.Child.isSome = true ∧
      c'.children.length = cs.length +
        (resp.Links.filterMap (fun l => NewNodeByDataCid sh l.Target c.Path l.Name)).length := by
  cases fuel with
  | zero => simp [TreeNode.BuildChildTree] at hrun
  | succ fuel =>
    obtain ⟨-, hloop, -, -, -, -, h5, -⟩ := TreeNode.BuildChildTree_dir hd hrun
    have hti := TreeNode.forEachChild_getElem? hloop i
    rw [hi] at hti
    simp only [Option.some_bind] at hti
    have hlt : i < t.children.length := by
      rw [TreeNode.forEachChild_length hloop]
      exact (List.getElem?_eq_some_iff.mp hi).1
    obtain ⟨c', hc'⟩ : ∃ c', t.children[i]? = some c' := ⟨_, List.getElem?_eq_getElem hlt⟩
    rw [hc'] at hti
    obtain ⟨e', hrec⟩ := TreeNode.childStep_expand hc hresp hcs hti.symm
    obtain ⟨hlab, hlen, hsome⟩ := TreeNode.BuildChildTree_shape hrec
    refine ⟨h5.trans hd, c', hc', hlab, hsome rfl, ?_⟩
    rw [hlen]
    simp [TreeNode.children]

/-- C18, as stated, fails on the code: the directory child `b` of `nilRoot`
has a nil child container, its fetch succeeds with one resolvable link, and
each call of `BuildChildTree` leaves it with no children instead of one more. -/
theorem nil_container_child_never_grows :
    exampleBNil.Dir = true ∧
    exampleShell.DagGet exampleBNil.Hash = some ⟨"", [⟨"Qc", "c", 20⟩]⟩ ∧
    ([(⟨"Qc", "c", 20⟩ : DagLink)].filterMap
      (fun l => NewNodeByDataCid exampleShell l.Target exampleBNil.Path l.Name)).length = 1 ∧
    TreeNode.BuildChildTree 3 exampleShell nilRoot = some (nilRoot, none) ∧
    nilRoot.children = [exampleBNil] ∧
    exampleBNil.children.length ≠ exampleBNil.children.length + 1 :=
  ⟨rfl, rfl, rfl, rfl, rfl, by decide⟩

/-- C18, amended. For a directory `n` and a directory child `c` of `n` whose
child container is not nil and whose link-fetch succeeds with `k` resolvable
links, each returning call of `n.BuildChildTree` gives `c` exactly `k` more
children: after one call it has its original children plus `k`, after two
successive calls plus `2 * k`. -/
theorem buildChildTree_reattaches_links (sh : Shell) (n c t1 t2 : TreeNode) (e1 e2 : GoError)
    (fuel1 fuel2 i : Nat) (resp : DagGetResponse) (cs : List TreeNode)
    (hd : n.Dir = true) (hi : n.children[i]? = some c) (hc : c.Dir = true)
    (hcs : c.Child = some cs) (hresp : sh.DagGet c.Hash = some resp)
    (h1 : TreeNode.BuildChildTree fuel1 sh n = some (t1, e1))
    (h2 : TreeNode.BuildChildTree fuel2 sh t1 = some (t2, e2)) :
    ∃ c1 c2, t1.children[i]? = some c1 ∧ t2.children[i]? = some c2 ∧
      c1.children.length = cs.length +
        (resp.Links.filterMap (fun l => NewNodeByDataCid sh l.Target c.Path l.Name)).length ∧
      c2.children.length = cs.length + 2 *
        (resp.Links.filterMap (fun l => NewNodeByDataCid sh l.Target c.Path l.Name)).length := by
  obtain ⟨hd1, c1, hc1, hlab1, hsome1, hlen1⟩ :=
    TreeNode.BuildChildTree_child_grows hd h1 hi hc hresp hcs
  obtain ⟨cs1, hcs1⟩ := Option.isSome_iff_exists.mp hsome1
  have hresp1 : sh.DagGet c1.Hash = some resp := by rw [hlab1.2.2.1]; exact hresp
  obtain ⟨-, c2, hc2, -, -, hlen2⟩ :=
    TreeNode.BuildChildTree_child_grows hd1 h2 hc1 (hlab1.2.2.2.2.1.trans hc) hresp1 hcs1
  refine ⟨c1, c2, hc1, hc2, hlen1, ?_⟩
  have hcs1len : cs1.length = c1.children.length := by simp [TreeNode.children, hcs1]
  rw [hlen2, hcs1len, hlen1, hlab1.1]
  omega

/-- The theorem C18 (amended) on the worked example: `b` has 0, then 1, then 2
children. -/
theorem buildChildTree_reattaches_links_witness :
    ∃ c1 c2, exampleTree.children[1]? = some c1 ∧ exampleTreeTwice.children[1]? = some c2 ∧
      c1.children.length = ([] : List TreeNode).length +
        ([(⟨"Qc", "c", 20⟩ : DagLink)].filterMap
          (fun l => NewNodeByDataCid exampleShell l.Target exampleB.Path l.Name)).length ∧
      c2.children.length = ([] : List TreeNode).length + 2 *
        ([(⟨"Qc", "c", 20⟩ : DagLink)].filterMap
          (fun l => NewNodeByDataCid exampleShell l.Target exampleB.Path l.Name)).length :=
  buildChildTree_reattaches_links exampleShell exampleRoot exampleB exampleTree exampleTreeTwice
    none none 3 3 1 ⟨"", [⟨"Qc", "c", 20⟩]⟩ [] rfl rfl rfl rfl rfl rfl rfl
